import Mathlib

/-!
# Package `ord`: comparison and score functions for ordered containers

A shallow embedding of `ord.go` (`Fns`, `FnsReversed`, `FnScore`,
`FnScoreReversed`, `scoreBytes`) and the properties its specification states.

Conventions of the embedding:

* Go's `interface{}` is the type `Value`, one constructor per dynamic type the
  type switches name, plus `user` for every other dynamic type and `nil`.
* Methods of declared types are looked up in a method table `Methods`; a call
  of `Less` or of `Score` may panic.
* A Go panic is an `Except Panic` error.
* `float64` is modelled by its numeric value (`F64`): NaN, the two infinities,
  or a finite rational.  Zero carries no sign: Go's comparison operators do not
  tell `-0` from `+0`.  Conversions that round are written out (`round53`).
* Machine integers carry their range in their type (`SInt w`, `UInt w`);
  `int`, `uint` and `uintptr` are 64 bits wide.
-/

namespace ord

/-! ## Numeric model -/

/-- One byte, `uint8`. -/
abbrev Byte := Fin 256

/-- Unsigned machine integer of `w` bits. -/
abbrev UInt (w : Nat) := Fin (2 ^ w)

/-- Signed (two's complement) machine integer of `w` bits, by its value. -/
abbrev SInt (w : Nat) := { v : Int // -(2 ^ (w - 1) : Int) ≤ v ∧ v < 2 ^ (w - 1) }

/-- Value of a `float64`: not-a-number, an infinity, or a finite number. -/
inductive F64 where
  | nan
  | ninf
  | fin (q : ℚ)
  | pinf
  deriving DecidableEq

/-- Value of a `float32`; every such value is also a `float64` value. -/
inductive F32 where
  | nan
  | ninf
  | fin (q : ℚ)
  | pinf
  deriving DecidableEq

namespace F64

/-- Unary minus on `float64`. -/
def neg : F64 → F64
  | nan => nan
  | ninf => pinf
  | fin q => fin (-q)
  | pinf => ninf

/-- Go's `<` on `float64`: false whenever an operand is NaN. -/
def lt : F64 → F64 → Bool
  | nan, _ => false
  | _, nan => false
  | ninf, ninf => false
  | ninf, _ => true
  | fin _, ninf => false
  | fin a, fin b => decide (a < b)
  | fin _, pinf => true
  | pinf, _ => false

/-- Go's `>` on `float64`. -/
def gt (a b : F64) : Bool := lt b a

/-- Go's `==` on `float64`: false whenever an operand is NaN. -/
def eq : F64 → F64 → Bool
  | nan, _ => false
  | _, nan => false
  | ninf, ninf => true
  | fin a, fin b => decide (a = b)
  | pinf, pinf => true
  | _, _ => false

/-- Go's `<=` on `float64`. -/
def le (a b : F64) : Bool := lt a b || eq a b

/-- Go's `!=` on `float64`. -/
def ne (a b : F64) : Bool := !eq a b

end F64

namespace F32

/-- Go's `<` on `float32`. -/
def lt : F32 → F32 → Bool
  | nan, _ => false
  | _, nan => false
  | ninf, ninf => false
  | ninf, _ => true
  | fin _, ninf => false
  | fin a, fin b => decide (a < b)
  | fin _, pinf => true
  | pinf, _ => false

/-- Go's `>` on `float32`. -/
def gt (a b : F32) : Bool := lt b a

/-- Go's `==` on `float32`. -/
def eq : F32 → F32 → Bool
  | nan, _ => false
  | _, nan => false
  | ninf, ninf => true
  | fin a, fin b => decide (a = b)
  | pinf, pinf => true
  | _, _ => false

end F32

/-- The conversion `float64(x)` of a `float32`: exact. -/
def F64.ofF32 : F32 → F64
  | .nan => .nan
  | .ninf => .ninf
  | .fin q => .fin q
  | .pinf => .pinf

/-- Auxiliary for `ilog2`, by recursion on a bound `f` of the number of halvings. -/
def ilog2Aux : Nat → Nat → Nat
  | 0, _ => 0
  | f + 1, n => if n < 2 then 0 else ilog2Aux f (n / 2) + 1

/-- Index of the highest set bit of `n` (0 for `n = 0`). -/
def ilog2 (n : Nat) : Nat := ilog2Aux n n

/-- Round a natural number to 53 significant bits, ties to even: the value
`float64(n)` takes for an unsigned integer `n < 2^64`. -/
def round53 (n : Nat) : Nat :=
  let k := ilog2 n
  if k < 53 then n
  else
    let sh := k - 52
    let q := n >>> sh
    let r := n % 2 ^ sh
    let half := 2 ^ (sh - 1)
    let q1 := if half < r ∨ (r = half ∧ q % 2 = 1) then q + 1 else q
    q1 * 2 ^ sh

/-- The conversion `float64(n)` of an unsigned integer. -/
def F64.ofNat (n : Nat) : F64 := .fin (round53 n : Nat)

/-- The conversion `float64(v)` of a signed integer. -/
def F64.ofInt (v : Int) : F64 :=
  if v < 0 then .fin (-((round53 v.natAbs : Nat) : ℚ)) else .fin (round53 v.natAbs : Nat)

/-! ## Panics -/

/-- What a panic carries. -/
inductive Panic where
  /-- The call `panic(msg)` with a string. -/
  | str (msg : String)
  /-- A failed type assertion `x.(T)`: dynamic type of `x`, then `T`. -/
  | typeAssertion (dyn : String) (target : String)
  /-- An index out of range: index, then length. -/
  | index (i : Nat) (len : Nat)
  deriving DecidableEq, Repr

/-! ## `scoreBytes` -/

/-- Subtraction `a - b` of `uint`, wrapping. -/
def usub (a b : Nat) : Nat := (a + 2 ^ 64 - b % 2 ^ 64) % 2 ^ 64

/-- Multiplication `a * b` of `uint`, wrapping. -/
def umul (a b : Nat) : Nat := (a * b) % 2 ^ 64

/-- The shift `x << s` of a `uint64` by an unsigned count. -/
def shl64 (x s : Nat) : Nat := if s < 64 then (x <<< s) % 2 ^ 64 else 0

/-- The index expression `data[i]`. -/
def index (data : List Byte) (i : Nat) : Except Panic Byte :=
  match data[i]? with
  | some b => .ok b
  | none => .error (.index i data.length)

/-- Body of the loop of `scoreBytes`:
`result |= uint64(data[i]) << ((5 - i) * 8)`. -/
def scoreBytesStep (data : List Byte) (result : Nat) (i : Nat) : Except Panic Nat := do
  let b ← index data i
  pure (result ||| shl64 b.val (umul (usub 5 i) 8))

/-- The integer `result` that `scoreBytes` converts to `float64`.  A slice
length is a non-negative `int`, so `uint(len(data))` is the length itself. -/
def scoreBytesBits (data : List Byte) : Except Panic Nat :=
  let l := data.length
  let l := if l > 6 then 6 else l
  (List.range l).foldlM (scoreBytesStep data) 0

/-- Use up to 6 bytes to generate a score. -/
def scoreBytes (data : List Byte) : Except Panic F64 := do
  let result ← scoreBytesBits data
  pure (F64.ofNat result)

/-! ## Values, types and methods -/

/-- A Go value of type `interface{}`, by its dynamic type.  `user ty x` is a
value of any dynamic type other than the predeclared ones listed: `ty` is the
name `%T` prints and `x` the value's representation.  A Go `string` is its
sequence of bytes. -/
inductive Value (α : Type) where
  | nil
  | user (ty : String) (x : α)
  | bytes (data : List Byte)
  | float32 (x : F32)
  | float64 (x : F64)
  | int (v : SInt 64)
  | int16 (v : SInt 16)
  | int32 (v : SInt 32)
  | int64 (v : SInt 64)
  | int8 (v : SInt 8)
  | string (s : List Byte)
  | uint (v : UInt 64)
  | uint16 (v : UInt 16)
  | uint32 (v : UInt 32)
  | uint64 (v : UInt 64)
  | uint8 (v : UInt 8)
  | uintptr (v : UInt 64)

/-- The method sets of the declared types, by type name: the method
`Less(interface{}) bool` and the method `Score() float64`.  A call of either
may panic. -/
structure Methods (α : Type) where
  less : String → Option (α → Value α → Except Panic Bool)
  score : String → Option (α → Except Panic F64)

/-- An interface value of type `Fast`: the two methods bound to their receiver;
`Score` is the outcome of the call `Score()`. -/
structure Fast (α : Type) where
  Less : Value α → Except Panic Bool
  Score : Except Panic F64

/-- An interface value of type `Slow`. -/
structure Slow (α : Type) where
  Less : Value α → Except Panic Bool

/-- What the verb `%T` prints for a value. -/
def typeName {α : Type} : Value α → String
  | .nil => "<nil>"
  | .user ty _ => ty
  | .bytes _ => "[]uint8"
  | .float32 _ => "float32"
  | .float64 _ => "float64"
  | .int _ => "int"
  | .int16 _ => "int16"
  | .int32 _ => "int32"
  | .int64 _ => "int64"
  | .int8 _ => "int8"
  | .string _ => "string"
  | .uint _ => "uint"
  | .uint16 _ => "uint16"
  | .uint32 _ => "uint32"
  | .uint64 _ => "uint64"
  | .uint8 _ => "uint8"
  | .uintptr _ => "uintptr"

/-- The test `x, ok := v.(Fast)`: the dynamic type has both methods. -/
def asFast? {α : Type} (M : Methods α) : Value α → Option (Fast α)
  | .user ty x =>
    match M.less ty, M.score ty with
    | some l, some s => some ⟨l x, s x⟩
    | _, _ => none
  | _ => none

/-- The test `x, ok := v.(Slow)`: the dynamic type has the method `Less`. -/
def asSlow? {α : Type} (M : Methods α) : Value α → Option (Slow α)
  | .user ty x =>
    match M.less ty with
    | some l => some ⟨l x⟩
    | none => none
  | _ => none

/-- The type assertion `v.(Fast)`. -/
def assertFast {α : Type} (M : Methods α) (v : Value α) : Except Panic (Fast α) :=
  match asFast? M v with
  | some f => .ok f
  | none => .error (.typeAssertion (typeName v) "ord.Fast")

/-- The type assertion `v.(Slow)`. -/
def assertSlow {α : Type} (M : Methods α) (v : Value α) : Except Panic (Slow α) :=
  match asSlow? M v with
  | some f => .ok f
  | none => .error (.typeAssertion (typeName v) "ord.Slow")

/-- The type assertion `v.([]byte)`. -/
def assertBytes {α : Type} : Value α → Except Panic (List Byte)
  | .bytes data => .ok data
  | v => .error (.typeAssertion (typeName v) "[]uint8")

/-- The type assertion `v.(float32)`. -/
def assertFloat32 {α : Type} : Value α → Except Panic (F32)
  | .float32 x => .ok x
  | v => .error (.typeAssertion (typeName v) "float32")

/-- The type assertion `v.(float64)`. -/
def assertFloat64 {α : Type} : Value α → Except Panic (F64)
  | .float64 x => .ok x
  | v => .error (.typeAssertion (typeName v) "float64")

/-- The type assertion `v.(int)`. -/
def assertInt {α : Type} : Value α → Except Panic (SInt 64)
  | .int x => .ok x
  | v => .error (.typeAssertion (typeName v) "int")

/-- The type assertion `v.(int16)`. -/
def assertInt16 {α : Type} : Value α → Except Panic (SInt 16)
  | .int16 x => .ok x
  | v => .error (.typeAssertion (typeName v) "int16")

/-- The type assertion `v.(int32)`. -/
def assertInt32 {α : Type} : Value α → Except Panic (SInt 32)
  | .int32 x => .ok x
  | v => .error (.typeAssertion (typeName v) "int32")

/-- The type assertion `v.(int64)`. -/
def assertInt64 {α : Type} : Value α → Except Panic (SInt 64)
  | .int64 x => .ok x
  | v => .error (.typeAssertion (typeName v) "int64")

/-- The type assertion `v.(int8)`. -/
def assertInt8 {α : Type} : Value α → Except Panic (SInt 8)
  | .int8 x => .ok x
  | v => .error (.typeAssertion (typeName v) "int8")

/-- The type assertion `v.(string)`. -/
def assertString {α : Type} : Value α → Except Panic (List Byte)
  | .string x => .ok x
  | v => .error (.typeAssertion (typeName v) "string")

/-- The type assertion `v.(uint)`. -/
def assertUint {α : Type} : Value α → Except Panic (UInt 64)
  | .uint x => .ok x
  | v => .error (.typeAssertion (typeName v) "uint")

/-- The type assertion `v.(uint16)`. -/
def assertUint16 {α : Type} : Value α → Except Panic (UInt 16)
  | .uint16 x => .ok x
  | v => .error (.typeAssertion (typeName v) "uint16")

/-- The type assertion `v.(uint32)`. -/
def assertUint32 {α : Type} : Value α → Except Panic (UInt 32)
  | .uint32 x => .ok x
  | v => .error (.typeAssertion (typeName v) "uint32")

/-- The type assertion `v.(uint64)`. -/
def assertUint64 {α : Type} : Value α → Except Panic (UInt 64)
  | .uint64 x => .ok x
  | v => .error (.typeAssertion (typeName v) "uint64")

/-- The type assertion `v.(uint8)`. -/
def assertUint8 {α : Type} : Value α → Except Panic (UInt 8)
  | .uint8 x => .ok x
  | v => .error (.typeAssertion (typeName v) "uint8")

/-- The type assertion `v.(uintptr)`. -/
def assertUintptr {α : Type} : Value α → Except Panic (UInt 64)
  | .uintptr x => .ok x
  | v => .error (.typeAssertion (typeName v) "uintptr")

/-! ## Library functions the source calls -/

/-- The function `bytes.Compare`: lexicographic comparison of two byte slices,
`-1` if `a < b`, `0` if `a == b`, `+1` if `a > b`. -/
def bytesCompare : List Byte → List Byte → Int
  | [], [] => 0
  | [], _ :: _ => -1
  | _ :: _, [] => 1
  | x :: xs, y :: ys => if x < y then -1 else if y < x then 1 else bytesCompare xs ys

/-- Go's `<` on strings: lexical, byte-wise. -/
def stringLess : List Byte → List Byte → Bool
  | _, [] => false
  | [], _ :: _ => true
  | x :: xs, y :: ys => if x < y then true else if y < x then false else stringLess xs ys

/-- Go's `>` on strings. -/
def stringGreater (a b : List Byte) : Bool := stringLess b a

/-- The message of the panic of the four operations, for the type name `ty`. -/
def cannotOrder (ty : String) : String :=
  "cannot order type " ++ ty ++ ": no method Less(a, b interface\x7b\x7d) bool"

/-- A comparison function `func(a, b interface{}) bool`. -/
abbrev LessFn (α : Type) := Value α → Value α → Except Panic Bool

/-- A score function `func(a interface{}) float64`. -/
abbrev ScoreFn (α : Type) := Value α → Except Panic F64

/-! ## The four operations -/

/-- The function `Fns`: comparison and score functions for sorting in increasing order,
chosen by the type switch on the sample `a`. -/
def Fns {α : Type} (M : Methods α) (a : Value α) : Except Panic (LessFn α × ScoreFn α) :=
  match asFast? M a with
  | some _ => .ok (fun a b => do let f ← assertFast M a; f.Less b,
      fun t => do let f ← assertFast M t; f.Score)
  | none =>
  match asSlow? M a with
  | some _ => .ok (fun a b => do let s ← assertSlow M a; s.Less b,
      fun _ => pure (F64.fin 0))
  | none =>
  match a with
  | .bytes _ => .ok (fun a b => do let x ← assertBytes a; let y ← assertBytes b; pure (decide (bytesCompare x y < 0)),
      fun t => do let x ← assertBytes t; scoreBytes x)
  | .float32 _ => .ok (fun a b => do let x ← assertFloat32 a; let y ← assertFloat32 b; pure (F32.lt x y),
      fun t => do let x ← assertFloat32 t; pure (F64.ofF32 x))
  | .float64 _ => .ok (fun a b => do let x ← assertFloat64 a; let y ← assertFloat64 b; pure (F64.lt x y),
      fun t => do let x ← assertFloat64 t; pure x)
  | .int _ => .ok (fun a b => do let x ← assertInt a; let y ← assertInt b; pure (decide (x.val < y.val)),
      fun t => do let x ← assertInt t; pure (F64.ofInt x.val))
  | .int16 _ => .ok (fun a b => do let x ← assertInt16 a; let y ← assertInt16 b; pure (decide (x.val < y.val)),
      fun t => do let x ← assertInt16 t; pure (F64.ofInt x.val))
  | .int32 _ => .ok (fun a b => do let x ← assertInt32 a; let y ← assertInt32 b; pure (decide (x.val < y.val)),
      fun t => do let x ← assertInt32 t; pure (F64.ofInt x.val))
  | .int64 _ => .ok (fun a b => do let x ← assertInt64 a; let y ← assertInt64 b; pure (decide (x.val < y.val)),
      fun t => do let x ← assertInt64 t; pure (F64.ofInt x.val))
  | .int8 _ => .ok (fun a b => do let x ← assertInt8 a; let y ← assertInt8 b; pure (decide (x.val < y.val)),
      fun t => do let x ← assertInt8 t; pure (F64.ofInt x.val))
  | .string _ => .ok (fun a b => do let x ← assertString a; let y ← assertString b; pure (stringLess x y),
      fun t => do let x ← assertString t; scoreBytes x)
  | .uint _ => .ok (fun a b => do let x ← assertUint a; let y ← assertUint b; pure (decide (x < y)),
      fun t => do let x ← assertUint t; pure (F64.ofNat x.val))
  | .uint16 _ => .ok (fun a b => do let x ← assertUint16 a; let y ← assertUint16 b; pure (decide (x < y)),
      fun t => do let x ← assertUint16 t; pure (F64.ofNat x.val))
  | .uint32 _ => .ok (fun a b => do let x ← assertUint32 a; let y ← assertUint32 b; pure (decide (x < y)),
      fun t => do let x ← assertUint32 t; pure (F64.ofNat x.val))
  | .uint64 _ => .ok (fun a b => do let x ← assertUint64 a; let y ← assertUint64 b; pure (decide (x < y)),
      fun t => do let x ← assertUint64 t; pure (F64.ofNat x.val))
  | .uint8 _ => .ok (fun a b => do let x ← assertUint8 a; let y ← assertUint8 b; pure (decide (x < y)),
      fun t => do let x ← assertUint8 t; pure (F64.ofNat x.val))
  | .uintptr _ => .ok (fun a b => do let x ← assertUintptr a; let y ← assertUintptr b; pure (decide (x < y)),
      fun t => do let x ← assertUintptr t; pure (F64.ofNat x.val))
  | _ => .error (.str (cannotOrder (typeName a)))

/-- The function `FnsReversed`: like `Fns`, for sorting in reverse order. -/
def FnsReversed {α : Type} (M : Methods α) (a : Value α) : Except Panic (LessFn α × ScoreFn α) :=
  match asFast? M a with
  | some _ => .ok (fun a b => do let f ← assertFast M b; f.Less a,
      fun t => do let f ← assertFast M t; let r ← f.Score; pure (F64.neg r))
  | none =>
  match asSlow? M a with
  | some _ => .ok (fun a b => do let s ← assertSlow M b; s.Less a,
      fun _ => pure (F64.neg (F64.fin 0)))
  | none =>
  match a with
  | .bytes _ => .ok (fun a b => do let x ← assertBytes a; let y ← assertBytes b; pure (decide (bytesCompare x y > 0)),
      fun t => do let x ← assertBytes t; let r ← scoreBytes x; pure (F64.neg r))
  | .float32 _ => .ok (fun a b => do let x ← assertFloat32 a; let y ← assertFloat32 b; pure (F32.gt x y),
      fun t => do let x ← assertFloat32 t; pure (F64.neg (F64.ofF32 x)))
  | .float64 _ => .ok (fun a b => do let x ← assertFloat64 a; let y ← assertFloat64 b; pure (F64.gt x y),
      fun t => do let x ← assertFloat64 t; pure (F64.neg x))
  | .int _ => .ok (fun a b => do let x ← assertInt a; let y ← assertInt b; pure (decide (x.val > y.val)),
      fun t => do let x ← assertInt t; pure (F64.neg (F64.ofInt x.val)))
  | .int16 _ => .ok (fun a b => do let x ← assertInt16 a; let y ← assertInt16 b; pure (decide (x.val > y.val)),
      fun t => do let x ← assertInt16 t; pure (F64.neg (F64.ofInt x.val)))
  | .int32 _ => .ok (fun a b => do let x ← assertInt32 a; let y ← assertInt32 b; pure (decide (x.val > y.val)),
      fun t => do let x ← assertInt32 t; pure (F64.neg (F64.ofInt x.val)))
  | .int64 _ => .ok (fun a b => do let x ← assertInt64 a; let y ← assertInt64 b; pure (decide (x.val > y.val)),
      fun t => do let x ← assertInt64 t; pure (F64.neg (F64.ofInt x.val)))
  | .int8 _ => .ok (fun a b => do let x ← assertInt8 a; let y ← assertInt8 b; pure (decide (x.val > y.val)),
      fun t => do let x ← assertInt8 t; pure (F64.neg (F64.ofInt x.val)))
  | .string _ => .ok (fun a b => do let x ← assertString a; let y ← assertString b; pure (stringGreater x y),
      fun t => do let x ← assertString t; let r ← scoreBytes x; pure (F64.neg r))
  | .uint _ => .ok (fun a b => do let x ← assertUint a; let y ← assertUint b; pure (decide (x > y)),
      fun t => do let x ← assertUint t; pure (F64.neg (F64.ofNat x.val)))
  | .uint16 _ => .ok (fun a b => do let x ← assertUint16 a; let y ← assertUint16 b; pure (decide (x > y)),
      fun t => do let x ← assertUint16 t; pure (F64.neg (F64.ofNat x.val)))
  | .uint32 _ => .ok (fun a b => do let x ← assertUint32 a; let y ← assertUint32 b; pure (decide (x > y)),
      fun t => do let x ← assertUint32 t; pure (F64.neg (F64.ofNat x.val)))
  | .uint64 _ => .ok (fun a b => do let x ← assertUint64 a; let y ← assertUint64 b; pure (decide (x > y)),
      fun t => do let x ← assertUint64 t; pure (F64.neg (F64.ofNat x.val)))
  | .uint8 _ => .ok (fun a b => do let x ← assertUint8 a; let y ← assertUint8 b; pure (decide (x > y)),
      fun t => do let x ← assertUint8 t; pure (F64.neg (F64.ofNat x.val)))
  | .uintptr _ => .ok (fun a b => do let x ← assertUintptr a; let y ← assertUintptr b; pure (decide (x > y)),
      fun t => do let x ← assertUintptr t; pure (F64.neg (F64.ofNat x.val)))
  | _ => .error (.str (cannotOrder (typeName a)))

/-- The function `FnScore`: a comparison function and the score of `value` itself. -/
def FnScore {α : Type} (M : Methods α) (value : Value α) : Except Panic (LessFn α × F64) :=
  match asFast? M value with
  | some v => do
    let r ← v.Score
    pure (fun a b => do let f ← assertFast M a; f.Less b, r)
  | none =>
  match asSlow? M value with
  | some _ => .ok (fun a b => do let s ← assertSlow M a; s.Less b, F64.fin 0)
  | none =>
  match value with
  | .bytes v => do
    let r ← scoreBytes v
    pure (fun a b => do let x ← assertBytes a; let y ← assertBytes b; pure (decide (bytesCompare x y < 0)),
      r)
  | .float32 v => .ok (fun a b => do let x ← assertFloat32 a; let y ← assertFloat32 b; pure (F32.lt x y),
      F64.ofF32 v)
  | .float64 v => .ok (fun a b => do let x ← assertFloat64 a; let y ← assertFloat64 b; pure (F64.lt x y),
      v)
  | .int v => .ok (fun a b => do let x ← assertInt a; let y ← assertInt b; pure (decide (x.val < y.val)),
      F64.ofInt v.val)
  | .int16 v => .ok (fun a b => do let x ← assertInt16 a; let y ← assertInt16 b; pure (decide (x.val < y.val)),
      F64.ofInt v.val)
  | .int32 v => .ok (fun a b => do let x ← assertInt32 a; let y ← assertInt32 b; pure (decide (x.val < y.val)),
      F64.ofInt v.val)
  | .int64 v => .ok (fun a b => do let x ← assertInt64 a; let y ← assertInt64 b; pure (decide (x.val < y.val)),
      F64.ofInt v.val)
  | .int8 v => .ok (fun a b => do let x ← assertInt8 a; let y ← assertInt8 b; pure (decide (x.val < y.val)),
      F64.ofInt v.val)
  | .string v => do
    let r ← scoreBytes v
    pure (fun a b => do let x ← assertString a; let y ← assertString b; pure (stringLess x y),
      r)
  | .uint v => .ok (fun a b => do let x ← assertUint a; let y ← assertUint b; pure (decide (x < y)),
      F64.ofNat v.val)
  | .uint16 v => .ok (fun a b => do let x ← assertUint16 a; let y ← assertUint16 b; pure (decide (x < y)),
      F64.ofNat v.val)
  | .uint32 v => .ok (fun a b => do let x ← assertUint32 a; let y ← assertUint32 b; pure (decide (x < y)),
      F64.ofNat v.val)
  | .uint64 v => .ok (fun a b => do let x ← assertUint64 a; let y ← assertUint64 b; pure (decide (x < y)),
      F64.ofNat v.val)
  | .uint8 v => .ok (fun a b => do let x ← assertUint8 a; let y ← assertUint8 b; pure (decide (x < y)),
      F64.ofNat v.val)
  | .uintptr v => .ok (fun a b => do let x ← assertUintptr a; let y ← assertUintptr b; pure (decide (x < y)),
      F64.ofNat v.val)
  | _ => .error (.str (cannotOrder (typeName value)))

/-- The function `FnScoreReversed`: like `FnScore`, for sorting in reverse order. -/
def FnScoreReversed {α : Type} (M : Methods α) (value : Value α) : Except Panic (LessFn α × F64) :=
  match asFast? M value with
  | some v => do
    let r ← v.Score
    pure (fun a b => do let f ← assertFast M b; f.Less a, F64.neg r)
  | none =>
  match asSlow? M value with
  | some _ => .ok (fun a b => do let s ← assertSlow M b; s.Less a, F64.neg (F64.fin 0))
  | none =>
  match value with
  | .bytes v => do
    let r ← scoreBytes v
    pure (fun a b => do let x ← assertBytes a; let y ← assertBytes b; pure (decide (bytesCompare x y > 0)),
      F64.neg r)
  | .float32 v => .ok (fun a b => do let x ← assertFloat32 a; let y ← assertFloat32 b; pure (F32.gt x y),
      F64.neg (F64.ofF32 v))
  | .float64 v => .ok (fun a b => do let x ← assertFloat64 a; let y ← assertFloat64 b; pure (F64.gt x y),
      F64.neg v)
  | .int v => .ok (fun a b => do let x ← assertInt a; let y ← assertInt b; pure (decide (x.val > y.val)),
      F64.neg (F64.ofInt v.val))
  | .int16 v => .ok (fun a b => do let x ← assertInt16 a; let y ← assertInt16 b; pure (decide (x.val > y.val)),
      F64.neg (F64.ofInt v.val))
  | .int32 v => .ok (fun a b => do let x ← assertInt32 a; let y ← assertInt32 b; pure (decide (x.val > y.val)),
      F64.neg (F64.ofInt v.val))
  | .int64 v => .ok (fun a b => do let x ← assertInt64 a; let y ← assertInt64 b; pure (decide (x.val > y.val)),
      F64.neg (F64.ofInt v.val))
  | .int8 v => .ok (fun a b => do let x ← assertInt8 a; let y ← assertInt8 b; pure (decide (x.val > y.val)),
      F64.neg (F64.ofInt v.val))
  | .string v => do
    let r ← scoreBytes v
    pure (fun a b => do let x ← assertString a; let y ← assertString b; pure (stringGreater x y),
      F64.neg r)
  | .uint v => .ok (fun a b => do let x ← assertUint a; let y ← assertUint b; pure (decide (x > y)),
      F64.neg (F64.ofNat v.val))
  | .uint16 v => .ok (fun a b => do let x ← assertUint16 a; let y ← assertUint16 b; pure (decide (x > y)),
      F64.neg (F64.ofNat v.val))
  | .uint32 v => .ok (fun a b => do let x ← assertUint32 a; let y ← assertUint32 b; pure (decide (x > y)),
      F64.neg (F64.ofNat v.val))
  | .uint64 v => .ok (fun a b => do let x ← assertUint64 a; let y ← assertUint64 b; pure (decide (x > y)),
      F64.neg (F64.ofNat v.val))
  | .uint8 v => .ok (fun a b => do let x ← assertUint8 a; let y ← assertUint8 b; pure (decide (x > y)),
      F64.neg (F64.ofNat v.val))
  | .uintptr v => .ok (fun a b => do let x ← assertUintptr a; let y ← assertUintptr b; pure (decide (x > y)),
      F64.neg (F64.ofNat v.val))
  | _ => .error (.str (cannotOrder (typeName value)))

/-! ## Shapes -/

/-- The cases of the type switch, in its order. -/
inductive Shape where
  | fast | slow | bytes | float32 | float64 | int | int16 | int32 | int64 | int8
  | string | uint | uint16 | uint32 | uint64 | uint8 | uintptr
  deriving DecidableEq, Repr

/-- The case the type switch of the four operations takes for a value, `none`
when it falls through to the panic. -/
def shapeOf {α : Type} (M : Methods α) (v : Value α) : Option Shape :=
  match asFast? M v with
  | some _ => some .fast
  | none =>
  match asSlow? M v with
  | some _ => some .slow
  | none =>
  match v with
  | .bytes _ => some .bytes
  | .float32 _ => some .float32
  | .float64 _ => some .float64
  | .int _ => some .int
  | .int16 _ => some .int16
  | .int32 _ => some .int32
  | .int64 _ => some .int64
  | .int8 _ => some .int8
  | .string _ => some .string
  | .uint _ => some .uint
  | .uint16 _ => some .uint16
  | .uint32 _ => some .uint32
  | .uint64 _ => some .uint64
  | .uint8 _ => some .uint8
  | .uintptr _ => some .uintptr
  | _ => none

/-! ## The packing, as the specification words it -/

/-- The packing the specification describes: the sum over `i < min(len, 6)` of
`data[i] * 256^(5 - i)`. -/
def packedSum (data : List Byte) : Nat :=
  ((List.range (min data.length 6)).map fun i => (data.getD i 0).val * 256 ^ (5 - i)).sum

/-- Sum of the first `n` lanes of the packing. -/
def lanes (data : List Byte) (n : Nat) : Nat :=
  ((List.range n).map fun i => (data.getD i 0).val * 256 ^ (5 - i)).sum

/-- Big-endian value of the first `k` bytes, short input padded with zeros. -/
def pack : Nat → List Byte → Nat
  | 0, _ => 0
  | _ + 1, [] => 0
  | k + 1, b :: bs => b.val * 256 ^ k + pack k bs

/-! ## The types of the test file -/

/-- The types `slow` and `fast` of `ord_test.go`, both with underlying type
`int`: `Less` asserts that its argument has the receiver's type and compares,
`Score` of `fast` converts to `float64`. -/
def testMethods : Methods (SInt 64) where
  less := fun ty =>
    if ty = "ord.slow" ∨ ty = "ord.fast" then
      some fun x i =>
        match i with
        | .user ty2 y => if ty2 = ty then .ok (decide (x.val < y.val))
                         else .error (.typeAssertion ty2 ty)
        | v => .error (.typeAssertion (typeName v) ty)
    else none
  score := fun ty =>
    if ty = "ord.fast" then some fun x => .ok (F64.ofInt x.val) else none

/-- A type `moody` with underlying type `int` and both methods, whose `Score`
is `func (m moody) Score() float64 { panic("no score") }`. -/
def moodyMethods : Methods (SInt 64) where
  less := fun ty =>
    if ty = "ord.moody" then
      some fun x i =>
        match i with
        | .user ty2 y => if ty2 = ty then .ok (decide (x.val < y.val))
                         else .error (.typeAssertion ty2 ty)
        | v => .error (.typeAssertion (typeName v) ty)
    else none
  score := fun ty =>
    if ty = "ord.moody" then some fun _ => .error (.str "no score") else none

/-- The value `moody(0)`. -/
def moody0 : Value (SInt 64) := .user "ord.moody" ⟨0, by decide⟩

/-- The byte slice `[]byte("abcdef")`. -/
def abcdef : List Byte := [0x61, 0x62, 0x63, 0x64, 0x65, 0x66]

/-- The byte slice `[]byte("abcdeg")`. -/
def abcdeg : List Byte := [0x61, 0x62, 0x63, 0x64, 0x65, 0x67]

/-! ## Vocabulary of the statements -/

/-- The first `k` bytes of `data`, short input padded with zero bytes to length `k`. -/
def window : Nat → List Byte → List Byte
  | 0, _ => []
  | k + 1, [] => 0 :: window k []
  | k + 1, b :: bs => b :: window k bs

/-- The six-byte window of a byte sequence or text, `none` for other values. -/
def scoreWindow {α : Type} : Value α → Option (List Byte)
  | .bytes data => some (window 6 data)
  | .string s => some (window 6 s)
  | _ => none

/-- Absolute value of a value of an integer kind (0 for other values). -/
def magnitude {α : Type} : Value α → Nat
  | .int v => v.val.natAbs
  | .int16 v => v.val.natAbs
  | .int32 v => v.val.natAbs
  | .int64 v => v.val.natAbs
  | .int8 v => v.val.natAbs
  | .uint v => v.val
  | .uint16 v => v.val
  | .uint32 v => v.val
  | .uint64 v => v.val
  | .uint8 v => v.val
  | .uintptr v => v.val
  | _ => 0

/-- The condition under which the score of a built-in shape separates `a` and `b`:
none for the floating-point kinds and the integer kinds of at most 32 bits; both
magnitudes at most `2^53` for the 64-bit integer kinds; different six-byte
windows for byte sequences and text.  Not defined for the two method shapes. -/
def separates {α : Type} (sh : Shape) (a b : Value α) : Prop :=
  match sh with
  | .fast => False
  | .slow => False
  | .bytes => scoreWindow a ≠ scoreWindow b
  | .string => scoreWindow a ≠ scoreWindow b
  | .int => magnitude a ≤ 2 ^ 53 ∧ magnitude b ≤ 2 ^ 53
  | .int64 => magnitude a ≤ 2 ^ 53 ∧ magnitude b ≤ 2 ^ 53
  | .uint => magnitude a ≤ 2 ^ 53 ∧ magnitude b ≤ 2 ^ 53
  | .uint64 => magnitude a ≤ 2 ^ 53 ∧ magnitude b ≤ 2 ^ 53
  | .uintptr => magnitude a ≤ 2 ^ 53 ∧ magnitude b ≤ 2 ^ 53
  | _ => True

instance {α : Type} (sh : Shape) (a b : Value α) : Decidable (separates sh a b) := by
  unfold separates
  cases sh <;> infer_instance

/-- The call `v.Score()` returns, for a value `v` with the rich capability; true
for every other value. -/
def scoreReturns {α : Type} (M : Methods α) (v : Value α) : Bool :=
  match asFast? M v with
  | some f =>
    match f.Score with
    | .error _ => false
    | .ok _ => true
  | none => true

/-- A value no case of the type switch takes: `nil`, or a value of a type
without the method `Less(interface{}) bool` that is not one of the predeclared
types listed. -/
def unsupported {α : Type} (M : Methods α) : Value α → Bool
  | .nil => true
  | .user ty _ => (M.less ty).isNone
  | _ => false

/-- The byte slice `[]byte("abcdefg")`. -/
def abcdefg : List Byte := [0x61, 0x62, 0x63, 0x64, 0x65, 0x66, 0x67]

/-- The byte slice `[]byte("abcdefh")`. -/
def abcdefh : List Byte := [0x61, 0x62, 0x63, 0x64, 0x65, 0x66, 0x68]

/-- The `int64` value `2^53`. -/
def int64_2p53 : SInt 64 := ⟨2 ^ 53, by decide⟩

/-- The `int64` value `2^53 + 1`. -/
def int64_2p53_succ : SInt 64 := ⟨2 ^ 53 + 1, by decide⟩

/-- The value `slow(0)` of the test file. -/
def slow0 : Value (SInt 64) := .user "ord.slow" ⟨0, by decide⟩

/-- The value `slow(1)` of the test file. -/
def slow1 : Value (SInt 64) := .user "ord.slow" ⟨1, by decide⟩

/-- The value `fast(0)` of the test file. -/
def fast0 : Value (SInt 64) := .user "ord.fast" ⟨0, by decide⟩

/-- The value `fast(1)` of the test file. -/
def fast1 : Value (SInt 64) := .user "ord.fast" ⟨1, by decide⟩

/-- A value of a struct type `ord.point` that declares no methods. -/
def point0 : Value (SInt 64) := .user "ord.point" ⟨0, by decide⟩

/-- The integer a value of an integer kind holds (0 for other values). -/
def intValue {α : Type} : Value α → Int
  | .int v => v.val
  | .int16 v => v.val
  | .int32 v => v.val
  | .int64 v => v.val
  | .int8 v => v.val
  | .uint v => v.val
  | .uint16 v => v.val
  | .uint32 v => v.val
  | .uint64 v => v.val
  | .uint8 v => v.val
  | .uintptr v => v.val
  | _ => 0

/-- The integer kinds. -/
def Shape.isInteger : Shape → Bool
  | .int | .int16 | .int32 | .int64 | .int8 => true
  | .uint | .uint16 | .uint32 | .uint64 | .uint8 | .uintptr => true
  | _ => false

/-- The integer kinds of at most 32 bits. -/
def Shape.atMost32 : Shape → Bool
  | .int16 | .int32 | .int8 | .uint16 | .uint32 | .uint8 => true
  | _ => false

/-- The `int64` value `0`. -/
def int64_0 : SInt 64 := ⟨0, by decide⟩

/-- The `int64` value `1`. -/
def int64_1 : SInt 64 := ⟨1, by decide⟩

/-! ## Arithmetic of the conversion to `float64` -/

theorem ilog2Aux_le (f : Nat) : ∀ (n k : Nat), n < 2 ^ (k + 1) → ilog2Aux f n ≤ k := by
  induction f with
  | zero => intro n k _; simp [ilog2Aux]
  | succ f ih =>
    intro n k h
    unfold ilog2Aux
    split
    · omega
    · rename_i h2
      cases k with
      | zero => simp at h; omega
      | succ k =>
        have : n / 2 < 2 ^ (k + 1) := by
          rw [pow_succ] at h; omega
        have := ih (n / 2) k this
        omega

/-- Integers below `2^53` convert to `float64` exactly. -/
theorem round53_of_lt (n : Nat) (h : n < 2 ^ 53) : round53 n = n := by
  have : ilog2 n ≤ 52 := ilog2Aux_le n n 52 h
  unfold round53
  simp only []
  rw [if_pos (by omega)]

theorem F64.ofNat_of_lt (n : Nat) (h : n < 2 ^ 53) : F64.ofNat n = .fin (n : ℚ) := by
  simp [F64.ofNat, round53_of_lt n h]

/-! ## Except -/

theorem bind_eq_ok {ε α β : Type} (e : Except ε α) (f : α → Except ε β) (r : β) :
    (e >>= f) = .ok r ↔ ∃ x, e = .ok x ∧ f x = .ok r := by
  cases e with
  | error err => simp [bind, Except.bind]
  | ok x => simp [bind, Except.bind]

/-! ## The loop of `scoreBytes` -/

theorem lanes_succ (data : List Byte) (n : Nat) :
    lanes data (n + 1) = lanes data n + (data.getD n 0).val * 256 ^ (5 - n) := by
  simp [lanes, List.range_succ]

theorem lanes_dvd (data : List Byte) (n : Nat) (hn : n ≤ 6) :
    2 ^ (8 * (6 - n)) ∣ lanes data n := by
  induction n with
  | zero => simp [lanes]
  | succ k ih =>
    rw [lanes_succ]
    have h1 : 2 ^ (8 * (6 - (k + 1))) ∣ lanes data k :=
      Dvd.dvd.trans (Nat.pow_dvd_pow 2 (by omega)) (ih (by omega))
    have h2 : 2 ^ (8 * (6 - (k + 1))) ∣ (data.getD k 0).val * 256 ^ (5 - k) := by
      have : (256 : Nat) ^ (5 - k) = 2 ^ (8 * (6 - (k + 1))) := by
        rw [show (256 : Nat) = 2 ^ 8 by norm_num, ← pow_mul]
        congr 1; omega
      rw [this]
      exact Dvd.intro_left _ rfl
    exact Dvd.dvd.add h1 h2

/-- One iteration: the lane of byte `n` is free, so `|=` adds it. -/
theorem scoreBytesStep_lanes (data : List Byte) (n : Nat) (hn : n < 6) (hl : n < data.length) :
    scoreBytesStep data (lanes data n) n = .ok (lanes data (n + 1)) := by
  have hb : (data.getD n 0).val < 256 := (data.getD n 0).isLt
  have hidx : index data n = .ok (data.getD n 0) := by
    simp [index, List.getD, List.getElem?_eq_getElem hl]
  have hs : umul (usub 5 n) 8 = 8 * (5 - n) := by
    simp only [usub, umul]; omega
  have hlt : (data.getD n 0).val * 2 ^ (8 * (5 - n)) < 2 ^ (8 * (6 - n)) := by
    have : 8 * (6 - n) = 8 + 8 * (5 - n) := by omega
    rw [this, pow_add]
    exact Nat.mul_lt_mul_of_lt_of_le hb (le_refl _) (by positivity)
  have hsh : shl64 (data.getD n 0).val (8 * (5 - n)) = (data.getD n 0).val * 2 ^ (8 * (5 - n)) := by
    have h64 : 8 * (5 - n) < 64 := by omega
    simp only [shl64, h64, if_true, Nat.shiftLeft_eq]
    apply Nat.mod_eq_of_lt
    calc _ < 2 ^ (8 * (6 - n)) := hlt
      _ ≤ 2 ^ 64 := Nat.pow_le_pow_right (by norm_num) (by omega)
  obtain ⟨c, hc⟩ := lanes_dvd data n (by omega)
  have hor : lanes data n ||| (data.getD n 0).val * 2 ^ (8 * (5 - n))
      = lanes data n + (data.getD n 0).val * 2 ^ (8 * (5 - n)) := by
    rw [hc]; exact (Nat.mul_add_lt_is_or hlt c).symm
  have h256 : (256 : Nat) ^ (5 - n) = 2 ^ (8 * (5 - n)) := by
    rw [show (256 : Nat) = 2 ^ 8 by norm_num, ← pow_mul]
  simp only [scoreBytesStep, hidx, hs, bind, Except.bind, pure, Except.pure, hsh, hor,
    lanes_succ, h256]

theorem scoreBytes_loop (data : List Byte) (n : Nat) (hn : n ≤ 6) (hl : n ≤ data.length) :
    (List.range n).foldlM (scoreBytesStep data) 0 = .ok (lanes data n) := by
  induction n with
  | zero => rfl
  | succ k ih =>
    rw [List.range_succ, List.foldlM_append, ih (by omega) (by omega)]
    simp only [List.foldlM, bind, Except.bind, pure, Except.pure]
    rw [scoreBytesStep_lanes data k (by omega) (by omega)]

theorem scoreBytesBits_eq (data : List Byte) : scoreBytesBits data = .ok (packedSum data) := by
  unfold scoreBytesBits packedSum
  simp only []
  have : (if data.length > 6 then 6 else data.length) = min data.length 6 := by
    split <;> omega
  rw [this]
  exact scoreBytes_loop data _ (by omega) (by omega)

/-! ## The packing as a recursion on the bytes -/

theorem packedSum_eq_pack_aux (k : Nat) : ∀ data : List Byte,
    ((List.range (min data.length k)).map fun i => (data.getD i 0).val * 256 ^ (k - 1 - i)).sum
      = pack k data := by
  induction k with
  | zero => intro data; simp [pack]
  | succ k ih =>
    intro data
    cases data with
    | nil => simp [pack]
    | cons b bs =>
      have hmin : min (b :: bs).length (k + 1) = min bs.length k + 1 := by
        simp only [List.length_cons]; omega
      rw [hmin, List.range_succ_eq_map, List.map_cons, List.sum_cons, List.map_map, pack, ← ih bs]
      congr 1
      apply congrArg
      apply List.map_congr_left
      intro i _
      simp only [Function.comp, List.getD_cons_succ]
      congr 2
      simp only [Nat.succ_eq_add_one]; omega

theorem packedSum_eq_pack (data : List Byte) : packedSum data = pack 6 data :=
  packedSum_eq_pack_aux 6 data

theorem pack_lt (k : Nat) : ∀ data : List Byte, pack k data < 256 ^ k := by
  induction k with
  | zero => intro data; simp [pack]
  | succ k ih =>
    intro data
    cases data with
    | nil => simp only [pack]; positivity
    | cons b bs =>
      have hb : b.val < 256 := b.isLt
      have := ih bs
      simp only [pack, pow_succ]
      nlinarith

theorem packedSum_lt (data : List Byte) : packedSum data < 2 ^ 48 := by
  rw [packedSum_eq_pack]
  have := pack_lt 6 data
  norm_num at this ⊢
  exact this

theorem scoreBytes_eq (data : List Byte) : scoreBytes data = .ok (.fin (packedSum data : ℚ)) := by
  have h := packedSum_lt data
  simp only [scoreBytes, scoreBytesBits_eq, bind, Except.bind, pure, Except.pure]
  rw [F64.ofNat_of_lt _ (by omega)]

/-! ## Type assertions and shapes -/

theorem assertBytes_eq_ok {α : Type} (v : Value α) (x : List Byte) :
    assertBytes v = .ok x ↔ v = .bytes x := by
  cases v <;> simp [assertBytes]

theorem assertString_eq_ok {α : Type} (v : Value α) (x : List Byte) :
    assertString v = .ok x ↔ v = .string x := by
  cases v <;> simp [assertString]

theorem shapeOf_user {α : Type} (M : Methods α) (ty : String) (x : α) :
    shapeOf M (.user ty x) = some .fast ∨ shapeOf M (.user ty x) = some .slow
      ∨ shapeOf M (.user ty x) = none := by
  cases h1 : M.less ty <;> cases h2 : M.score ty <;> simp [shapeOf, asFast?, asSlow?, h1, h2]

theorem shapeOf_eq_bytes {α : Type} (M : Methods α) (s : Value α)
    (h : shapeOf M s = some .bytes) : ∃ d, s = .bytes d := by
  cases s with
  | user ty x => rcases shapeOf_user M ty x with h1 | h1 | h1 <;> simp [h1] at h
  | bytes d => exact ⟨d, rfl⟩
  | _ => simp [shapeOf, asFast?, asSlow?] at h

theorem shapeOf_eq_string {α : Type} (M : Methods α) (s : Value α)
    (h : shapeOf M s = some .string) : ∃ d, s = .string d := by
  cases s with
  | user ty x => rcases shapeOf_user M ty x with h1 | h1 | h1 <;> simp [h1] at h
  | string d => exact ⟨d, rfl⟩
  | _ => simp [shapeOf, asFast?, asSlow?] at h

/-! ## Lexicographic order and the packing -/

theorem pack_mono (k : Nat) : ∀ a b : List Byte, bytesCompare a b < 0 → pack k a ≤ pack k b := by
  induction k with
  | zero => intro a b _; simp [pack]
  | succ k ih =>
    intro a b h
    cases a with
    | nil => simp [pack]
    | cons x xs =>
      cases b with
      | nil => simp [bytesCompare] at h
      | cons y ys =>
        simp only [bytesCompare] at h
        simp only [pack]
        by_cases hxy : x < y
        · have h1 := pack_lt k xs
          have h2 : x.val + 1 ≤ y.val := hxy
          have h3 : (x.val + 1) * 256 ^ k ≤ y.val * 256 ^ k := Nat.mul_le_mul_right _ h2
          have h4 : (x.val + 1) * 256 ^ k = x.val * 256 ^ k + 256 ^ k := by ring
          omega
        · rw [if_neg hxy] at h
          by_cases hyx : y < x
          · rw [if_pos hyx] at h; omega
          · rw [if_neg hyx] at h
            have hxy2 : x = y := le_antisymm (not_lt.mp hyx) (not_lt.mp hxy)
            subst hxy2
            have := ih xs ys h
            omega

theorem stringLess_iff (a : List Byte) : ∀ b, stringLess a b = true ↔ bytesCompare a b < 0 := by
  induction a with
  | nil => intro b; cases b <;> simp [stringLess, bytesCompare]
  | cons x xs ih =>
    intro b
    cases b with
    | nil => simp [stringLess, bytesCompare]
    | cons y ys =>
      simp only [stringLess, bytesCompare]
      by_cases hxy : x < y
      · simp [hxy]
      · by_cases hyx : y < x
        · simp [hxy, hyx]
        · simp [hxy, hyx, ih ys]

theorem F64.le_fin_natCast (m n : Nat) (h : m ≤ n) : F64.le (.fin (m : ℚ)) (.fin (n : ℚ)) = true := by
  simp only [F64.le, F64.lt, F64.eq, Bool.or_eq_true, decide_eq_true_eq, Nat.cast_lt, Nat.cast_inj]
  omega

/-- C2. `scoreBytes` packs the first `min(len(data), 6)` bytes big-endian and
left-aligned into a 48-bit integer: it returns the sum over `i < min(len, 6)` of
`data[i] * 256^(5 - i)`, converted exactly; that integer is below `2^48`, and
the empty sequence scores 0. -/
theorem scoreBytes_packs (data : List Byte) :
    scoreBytes data = .ok (.fin (packedSum data : ℚ)) ∧ packedSum data < 2 ^ 48
      ∧ scoreBytes [] = .ok (.fin 0) := by
  refine ⟨scoreBytes_eq data, packedSum_lt data, ?_⟩
  rw [scoreBytes_eq]; simp [packedSum]

/-- C1. For a byte-sequence or text sample, whenever the `less` returned by
`Fns` says `less(a, b)`, the `score` returned by `Fns` gives
`score(a) <= score(b)`. -/
theorem Fns_score_le_of_less {α : Type} (M : Methods α) (s a b : Value α)
    (p : LessFn α × ScoreFn α)
    (hs : shapeOf M s = some .bytes ∨ shapeOf M s = some .string)
    (hF : Fns M s = .ok p) (hlt : p.1 a b = .ok true) :
    ∃ sa sb, p.2 a = .ok sa ∧ p.2 b = .ok sb ∧ F64.le sa sb = true := by
  rcases hs with hs | hs
  · obtain ⟨d, rfl⟩ := shapeOf_eq_bytes M s hs
    simp only [Fns, asFast?, asSlow?, Except.ok.injEq] at hF
    subst hF
    simp only [bind_eq_ok, assertBytes_eq_ok] at hlt
    obtain ⟨x, rfl, y, rfl, hxy⟩ := hlt
    simp only [pure, Except.pure, Except.ok.injEq, decide_eq_true_eq] at hxy
    refine ⟨.fin (packedSum x : ℚ), .fin (packedSum y : ℚ), ?_, ?_, F64.le_fin_natCast _ _ ?_⟩
    · simp only [assertBytes, bind, Except.bind]; exact scoreBytes_eq x
    · simp only [assertBytes, bind, Except.bind]; exact scoreBytes_eq y
    · rw [packedSum_eq_pack, packedSum_eq_pack]; exact pack_mono 6 x y hxy
  · obtain ⟨d, rfl⟩ := shapeOf_eq_string M s hs
    simp only [Fns, asFast?, asSlow?, Except.ok.injEq] at hF
    subst hF
    simp only [bind_eq_ok, assertString_eq_ok] at hlt
    obtain ⟨x, rfl, y, rfl, hxy⟩ := hlt
    simp only [pure, Except.pure, Except.ok.injEq, stringLess_iff] at hxy
    refine ⟨.fin (packedSum x : ℚ), .fin (packedSum y : ℚ), ?_, ?_, F64.le_fin_natCast _ _ ?_⟩
    · simp only [assertString, bind, Except.bind]; exact scoreBytes_eq x
    · simp only [assertString, bind, Except.bind]; exact scoreBytes_eq y
    · rw [packedSum_eq_pack, packedSum_eq_pack]; exact pack_mono 6 x y hxy

/-- The pair `"abcdef"`, `"abcdeg"` of the test file, as byte slices. -/
theorem Fns_score_le_of_less_witness :
    ∃ p, Fns testMethods (.bytes []) = .ok p ∧ p.1 (.bytes abcdef) (.bytes abcdeg) = .ok true
      ∧ ∃ sa sb, p.2 (.bytes abcdef) = .ok sa ∧ p.2 (.bytes abcdeg) = .ok sb
        ∧ F64.le sa sb = true :=
  ⟨_, rfl, rfl, Fns_score_le_of_less testMethods (.bytes []) _ _ _ (Or.inl rfl) rfl rfl⟩

theorem round53_of_le (n : Nat) (h : n ≤ 2 ^ 53) : round53 n = n := by
  rcases Nat.lt_or_eq_of_le h with h1 | h1
  · exact round53_of_lt n h1
  · subst h1; decide

theorem F64.ofNat_exact (n : Nat) (h : n ≤ 2 ^ 53) : F64.ofNat n = .fin (n : ℚ) := by
  simp [F64.ofNat, round53_of_le n h]

theorem F64.ofInt_exact (v : Int) (h1 : -(2 ^ 53) ≤ v) (h2 : v ≤ 2 ^ 53) :
    F64.ofInt v = .fin (v : ℚ) := by
  have hn : v.natAbs ≤ 2 ^ 53 := by omega
  unfold F64.ofInt
  rw [round53_of_le _ hn]
  split
  · obtain ⟨n, rfl⟩ : ∃ n : Nat, v = -(n : ℤ) := ⟨v.natAbs, by omega⟩
    simp
  · obtain ⟨n, rfl⟩ : ∃ n : Nat, v = (n : ℤ) := ⟨v.natAbs, by omega⟩
    simp

theorem F64.lt_fin_intCast (x y : Int) : F64.lt (.fin (x : ℚ)) (.fin (y : ℚ)) = decide (x < y) := by
  simp [F64.lt]

theorem F64.lt_fin_natCast (x y : Nat) : F64.lt (.fin (x : ℚ)) (.fin (y : ℚ)) = decide (x < y) := by
  simp [F64.lt]

theorem F64.lt_ofF32 (x y : F32) : F64.lt (F64.ofF32 x) (F64.ofF32 y) = F32.lt x y := by
  cases x <;> cases y <;> rfl

/-! ## Type assertions -/

theorem assertFloat32_eq_ok {α : Type} (v : Value α) (x) :
    assertFloat32 v = .ok x ↔ v = .float32 x := by
  cases v <;> simp [assertFloat32]

theorem assertFloat64_eq_ok {α : Type} (v : Value α) (x) :
    assertFloat64 v = .ok x ↔ v = .float64 x := by
  cases v <;> simp [assertFloat64]

theorem assertInt_eq_ok {α : Type} (v : Value α) (x) :
    assertInt v = .ok x ↔ v = .int x := by
  cases v <;> simp [assertInt]

theorem assertInt16_eq_ok {α : Type} (v : Value α) (x) :
    assertInt16 v = .ok x ↔ v = .int16 x := by
  cases v <;> simp [assertInt16]

theorem assertInt32_eq_ok {α : Type} (v : Value α) (x) :
    assertInt32 v = .ok x ↔ v = .int32 x := by
  cases v <;> simp [assertInt32]

theorem assertInt64_eq_ok {α : Type} (v : Value α) (x) :
    assertInt64 v = .ok x ↔ v = .int64 x := by
  cases v <;> simp [assertInt64]

theorem assertInt8_eq_ok {α : Type} (v : Value α) (x) :
    assertInt8 v = .ok x ↔ v = .int8 x := by
  cases v <;> simp [assertInt8]

theorem assertUint_eq_ok {α : Type} (v : Value α) (x) :
    assertUint v = .ok x ↔ v = .uint x := by
  cases v <;> simp [assertUint]

theorem assertUint16_eq_ok {α : Type} (v : Value α) (x) :
    assertUint16 v = .ok x ↔ v = .uint16 x := by
  cases v <;> simp [assertUint16]

theorem assertUint32_eq_ok {α : Type} (v : Value α) (x) :
    assertUint32 v = .ok x ↔ v = .uint32 x := by
  cases v <;> simp [assertUint32]

theorem assertUint64_eq_ok {α : Type} (v : Value α) (x) :
    assertUint64 v = .ok x ↔ v = .uint64 x := by
  cases v <;> simp [assertUint64]

theorem assertUint8_eq_ok {α : Type} (v : Value α) (x) :
    assertUint8 v = .ok x ↔ v = .uint8 x := by
  cases v <;> simp [assertUint8]

theorem assertUintptr_eq_ok {α : Type} (v : Value α) (x) :
    assertUintptr v = .ok x ↔ v = .uintptr x := by
  cases v <;> simp [assertUintptr]

theorem pack_window (k : Nat) : ∀ x : List Byte, pack k (window k x) = pack k x := by
  induction k with
  | zero => intro x; rfl
  | succ k ih =>
    intro x
    cases x with
    | nil =>
      have := ih []
      cases k <;> simp_all [pack, window]
    | cons b bs => simp [pack, window, ih bs]

theorem window_eq_of_pack_eq (k : Nat) :
    ∀ x y : List Byte, pack k x = pack k y → window k x = window k y := by
  induction k with
  | zero => intro x y _; rfl
  | succ k ih =>
    have key : ∀ (u v : Byte) (us vs : List Byte),
        u.val * 256 ^ k + pack k us = v.val * 256 ^ k + pack k vs →
          u = v ∧ pack k us = pack k vs := by
      intro u v us vs h
      have h1 := pack_lt k us
      have h2 := pack_lt k vs
      have huv : u.val = v.val := by
        rcases Nat.lt_trichotomy u.val v.val with hlt | heq | hgt
        · have : (u.val + 1) * 256 ^ k ≤ v.val * 256 ^ k := Nat.mul_le_mul_right _ hlt
          have h4 : (u.val + 1) * 256 ^ k = u.val * 256 ^ k + 256 ^ k := by ring
          omega
        · exact heq
        · have : (v.val + 1) * 256 ^ k ≤ u.val * 256 ^ k := Nat.mul_le_mul_right _ hgt
          have h4 : (v.val + 1) * 256 ^ k = v.val * 256 ^ k + 256 ^ k := by ring
          omega
      refine ⟨Fin.ext huv, ?_⟩
      rw [huv] at h
      omega
    have hnil : pack k [] = 0 := by cases k <;> rfl
    intro x y h
    cases x with
    | nil =>
      cases y with
      | nil => rfl
      | cons v vs =>
        have h' : (0 : Byte).val * 256 ^ k + pack k [] = v.val * 256 ^ k + pack k vs := by
          simpa [pack, hnil] using h
        obtain ⟨h1, h2⟩ := key 0 v [] vs h'
        simp only [window, ← h1, ih [] vs h2]
    | cons u us =>
      cases y with
      | nil =>
        have h' : u.val * 256 ^ k + pack k us = (0 : Byte).val * 256 ^ k + pack k [] := by
          simpa [pack, hnil] using h
        obtain ⟨h1, h2⟩ := key u 0 us [] h'
        simp only [window, h1, ih us [] h2]
      | cons v vs =>
        obtain ⟨h1, h2⟩ := key u v us vs (by simpa [pack] using h)
        simp only [window, h1, ih us vs h2]

theorem packedSum_lt_of_less (x y : List Byte) (h : bytesCompare x y < 0)
    (hw : window 6 x ≠ window 6 y) : packedSum x < packedSum y := by
  rw [packedSum_eq_pack, packedSum_eq_pack]
  have h1 := pack_mono 6 x y h
  have h2 : pack 6 x ≠ pack 6 y := fun he => hw (window_eq_of_pack_eq 6 x y he)
  omega

theorem shapeOf_eq_float32 {α : Type} (M : Methods α) (s : Value α)
    (h : shapeOf M s = some .float32) : ∃ d, s = .float32 d := by
  cases s with
  | user ty x => rcases shapeOf_user M ty x with h1 | h1 | h1 <;> simp [h1] at h
  | float32 d => exact ⟨d, rfl⟩
  | _ => simp [shapeOf, asFast?, asSlow?] at h

theorem shapeOf_eq_float64 {α : Type} (M : Methods α) (s : Value α)
    (h : shapeOf M s = some .float64) : ∃ d, s = .float64 d := by
  cases s with
  | user ty x => rcases shapeOf_user M ty x with h1 | h1 | h1 <;> simp [h1] at h
  | float64 d => exact ⟨d, rfl⟩
  | _ => simp [shapeOf, asFast?, asSlow?] at h

theorem shapeOf_eq_int {α : Type} (M : Methods α) (s : Value α)
    (h : shapeOf M s = some .int) : ∃ d, s = .int d := by
  cases s with
  | user ty x => rcases shapeOf_user M ty x with h1 | h1 | h1 <;> simp [h1] at h
  | int d => exact ⟨d, rfl⟩
  | _ => simp [shapeOf, asFast?, asSlow?] at h

theorem shapeOf_eq_int16 {α : Type} (M : Methods α) (s : Value α)
    (h : shapeOf M s = some .int16) : ∃ d, s = .int16 d := by
  cases s with
  | user ty x => rcases shapeOf_user M ty x with h1 | h1 | h1 <;> simp [h1] at h
  | int16 d => exact ⟨d, rfl⟩
  | _ => simp [shapeOf, asFast?, asSlow?] at h

theorem shapeOf_eq_int32 {α : Type} (M : Methods α) (s : Value α)
    (h : shapeOf M s = some .int32) : ∃ d, s = .int32 d := by
  cases s with
  | user ty x => rcases shapeOf_user M ty x with h1 | h1 | h1 <;> simp [h1] at h
  | int32 d => exact ⟨d, rfl⟩
  | _ => simp [shapeOf, asFast?, asSlow?] at h

theorem shapeOf_eq_int64 {α : Type} (M : Methods α) (s : Value α)
    (h : shapeOf M s = some .int64) : ∃ d, s = .int64 d := by
  cases s with
  | user ty x => rcases shapeOf_user M ty x with h1 | h1 | h1 <;> simp [h1] at h
  | int64 d => exact ⟨d, rfl⟩
  | _ => simp [shapeOf, asFast?, asSlow?] at h

theorem shapeOf_eq_int8 {α : Type} (M : Methods α) (s : Value α)
    (h : shapeOf M s = some .int8) : ∃ d, s = .int8 d := by
  cases s with
  | user ty x => rcases shapeOf_user M ty x with h1 | h1 | h1 <;> simp [h1] at h
  | int8 d => exact ⟨d, rfl⟩
  | _ => simp [shapeOf, asFast?, asSlow?] at h

theorem shapeOf_eq_uint {α : Type} (M : Methods α) (s : Value α)
    (h : shapeOf M s = some .uint) : ∃ d, s = .uint d := by
  cases s with
  | user ty x => rcases shapeOf_user M ty x with h1 | h1 | h1 <;> simp [h1] at h
  | uint d => exact ⟨d, rfl⟩
  | _ => simp [shapeOf, asFast?, asSlow?] at h

theorem shapeOf_eq_uint16 {α : Type} (M : Methods α) (s : Value α)
    (h : shapeOf M s = some .uint16) : ∃ d, s = .uint16 d := by
  cases s with
  | user ty x => rcases shapeOf_user M ty x with h1 | h1 | h1 <;> simp [h1] at h
  | uint16 d => exact ⟨d, rfl⟩
  | _ => simp [shapeOf, asFast?, asSlow?] at h

theorem shapeOf_eq_uint32 {α : Type} (M : Methods α) (s : Value α)
    (h : shapeOf M s = some .uint32) : ∃ d, s = .uint32 d := by
  cases s with
  | user ty x => rcases shapeOf_user M ty x with h1 | h1 | h1 <;> simp [h1] at h
  | uint32 d => exact ⟨d, rfl⟩
  | _ => simp [shapeOf, asFast?, asSlow?] at h

theorem shapeOf_eq_uint64 {α : Type} (M : Methods α) (s : Value α)
    (h : shapeOf M s = some .uint64) : ∃ d, s = .uint64 d := by
  cases s with
  | user ty x => rcases shapeOf_user M ty x with h1 | h1 | h1 <;> simp [h1] at h
  | uint64 d => exact ⟨d, rfl⟩
  | _ => simp [shapeOf, asFast?, asSlow?] at h

theorem shapeOf_eq_uint8 {α : Type} (M : Methods α) (s : Value α)
    (h : shapeOf M s = some .uint8) : ∃ d, s = .uint8 d := by
  cases s with
  | user ty x => rcases shapeOf_user M ty x with h1 | h1 | h1 <;> simp [h1] at h
  | uint8 d => exact ⟨d, rfl⟩
  | _ => simp [shapeOf, asFast?, asSlow?] at h

theorem shapeOf_eq_uintptr {α : Type} (M : Methods α) (s : Value α)
    (h : shapeOf M s = some .uintptr) : ∃ d, s = .uintptr d := by
  cases s with
  | user ty x => rcases shapeOf_user M ty x with h1 | h1 | h1 <;> simp [h1] at h
  | uintptr d => exact ⟨d, rfl⟩
  | _ => simp [shapeOf, asFast?, asSlow?] at h

/-! ## C3: strictness of the score -/

theorem F64.ofInt_2p53_succ : F64.ofInt (2 ^ 53 + 1) = F64.ofInt (2 ^ 53) := by
  simp [F64.ofInt]; decide

/-- C3, amended. For a sample of a built-in shape, whenever the `less` returned
by `Fns` says `less(a, b)`, the `score` returned by `Fns` gives
`score(a) < score(b)`, provided the score separates the two values: always for
`float32`, `float64` and the integer kinds of at most 32 bits; when both
magnitudes are at most `2^53` for the 64-bit integer kinds; when the six-byte
windows differ for byte sequences and text. -/
theorem Fns_score_lt_of_less {α : Type} (M : Methods α) (s a b : Value α)
    (p : LessFn α × ScoreFn α) (sh : Shape) (hsh : shapeOf M s = some sh)
    (hF : Fns M s = .ok p) (hlt : p.1 a b = .ok true) (hsep : separates sh a b) :
    ∃ sa sb, p.2 a = .ok sa ∧ p.2 b = .ok sb ∧ F64.lt sa sb = true := by
  cases s with
  | nil => simp [shapeOf, asFast?, asSlow?] at hsh
  | user ty x =>
    rcases shapeOf_user M ty x with h1 | h1 | h1 <;> rw [h1] at hsh <;>
      simp only [Option.some.injEq, reduceCtorEq] at hsh <;> subst hsh <;>
      exact absurd hsep (by simp [separates])
  | bytes d =>
    simp only [shapeOf, asFast?, asSlow?, Option.some.injEq] at hsh; subst hsh
    simp only [Fns, asFast?, asSlow?, Except.ok.injEq] at hF; subst hF
    simp only [bind_eq_ok, assertBytes_eq_ok] at hlt
    obtain ⟨x, rfl, y, rfl, hxy⟩ := hlt
    simp only [pure, Except.pure, Except.ok.injEq, decide_eq_true_eq] at hxy
    simp only [separates, scoreWindow, ne_eq, Option.some.injEq] at hsep
    refine ⟨.fin (packedSum x : ℚ), .fin (packedSum y : ℚ), ?_, ?_, ?_⟩
    · simp only [assertBytes, bind, Except.bind]; exact scoreBytes_eq x
    · simp only [assertBytes, bind, Except.bind]; exact scoreBytes_eq y
    · rw [F64.lt_fin_natCast]; simpa using packedSum_lt_of_less x y hxy hsep
  | string d =>
    simp only [shapeOf, asFast?, asSlow?, Option.some.injEq] at hsh; subst hsh
    simp only [Fns, asFast?, asSlow?, Except.ok.injEq] at hF; subst hF
    simp only [bind_eq_ok, assertString_eq_ok] at hlt
    obtain ⟨x, rfl, y, rfl, hxy⟩ := hlt
    simp only [pure, Except.pure, Except.ok.injEq, stringLess_iff] at hxy
    simp only [separates, scoreWindow, ne_eq, Option.some.injEq] at hsep
    refine ⟨.fin (packedSum x : ℚ), .fin (packedSum y : ℚ), ?_, ?_, ?_⟩
    · simp only [assertString, bind, Except.bind]; exact scoreBytes_eq x
    · simp only [assertString, bind, Except.bind]; exact scoreBytes_eq y
    · rw [F64.lt_fin_natCast]; simpa using packedSum_lt_of_less x y hxy hsep
  | float32 d =>
    simp only [shapeOf, asFast?, asSlow?, Option.some.injEq] at hsh; subst hsh
    simp only [Fns, asFast?, asSlow?, Except.ok.injEq] at hF; subst hF
    simp only [bind_eq_ok, assertFloat32_eq_ok] at hlt
    obtain ⟨x, rfl, y, rfl, hxy⟩ := hlt
    simp only [pure, Except.pure, Except.ok.injEq] at hxy
    exact ⟨_, _, rfl, rfl, by rw [F64.lt_ofF32]; exact hxy⟩
  | float64 d =>
    simp only [shapeOf, asFast?, asSlow?, Option.some.injEq] at hsh; subst hsh
    simp only [Fns, asFast?, asSlow?, Except.ok.injEq] at hF; subst hF
    simp only [bind_eq_ok, assertFloat64_eq_ok] at hlt
    obtain ⟨x, rfl, y, rfl, hxy⟩ := hlt
    simp only [pure, Except.pure, Except.ok.injEq] at hxy
    exact ⟨_, _, rfl, rfl, hxy⟩
  | int d | int16 d | int32 d | int64 d | int8 d =>
    simp only [shapeOf, asFast?, asSlow?, Option.some.injEq] at hsh; subst hsh
    simp only [Fns, asFast?, asSlow?, Except.ok.injEq] at hF; subst hF
    simp only [bind_eq_ok, assertInt_eq_ok, assertInt16_eq_ok, assertInt32_eq_ok,
      assertInt64_eq_ok, assertInt8_eq_ok] at hlt
    obtain ⟨x, rfl, y, rfl, hxy⟩ := hlt
    simp only [pure, Except.pure, Except.ok.injEq, decide_eq_true_eq] at hxy
    have hx := x.property
    have hy := y.property
    simp only [separates, magnitude] at hsep
    norm_num at hx hy
    refine ⟨_, _, rfl, rfl, ?_⟩
    rw [F64.ofInt_exact _ (by omega) (by omega), F64.ofInt_exact _ (by omega) (by omega),
      F64.lt_fin_intCast]
    simpa using hxy
  | uint d | uint16 d | uint32 d | uint64 d | uint8 d | uintptr d =>
    simp only [shapeOf, asFast?, asSlow?, Option.some.injEq] at hsh; subst hsh
    simp only [Fns, asFast?, asSlow?, Except.ok.injEq] at hF; subst hF
    simp only [bind_eq_ok, assertUint_eq_ok, assertUint16_eq_ok, assertUint32_eq_ok,
      assertUint64_eq_ok, assertUint8_eq_ok, assertUintptr_eq_ok] at hlt
    obtain ⟨x, rfl, y, rfl, hxy⟩ := hlt
    simp only [pure, Except.pure, Except.ok.injEq, decide_eq_true_eq] at hxy
    have hx := x.isLt
    have hy := y.isLt
    simp only [separates, magnitude] at hsep
    norm_num at hx hy
    refine ⟨_, _, rfl, rfl, ?_⟩
    rw [F64.ofNat_exact _ (by omega), F64.ofNat_exact _ (by omega), F64.lt_fin_natCast]
    simpa using hxy

/-- The pair `"abcdef"`, `"abcdeg"` of the test file: the windows differ in the sixth byte. -/
theorem Fns_score_lt_of_less_witness :
    ∃ p, Fns testMethods (.bytes abcdef) = .ok p
      ∧ p.1 (.bytes abcdef) (.bytes abcdeg) = .ok true
      ∧ separates Shape.bytes (.bytes abcdef : Value (SInt 64)) (.bytes abcdeg)
      ∧ ∃ sa sb, p.2 (.bytes abcdef) = .ok sa ∧ p.2 (.bytes abcdeg) = .ok sb
        ∧ F64.lt sa sb = true :=
  ⟨_, rfl, rfl, by decide,
    Fns_score_lt_of_less testMethods (.bytes abcdef) _ _ _ Shape.bytes rfl rfl rfl (by decide)⟩

/-- C3 as stated fails: `"abcdefg" < "abcdefh"` as byte sequences and
`2^53 < 2^53 + 1` as `int64`, yet in both pairs the two scores are equal, so
`score(a) < score(b)` is false. -/
theorem Fns_score_not_strict :
    (∃ p, Fns testMethods (.bytes []) = .ok p
      ∧ p.1 (.bytes abcdefg) (.bytes abcdefh) = .ok true
      ∧ ∃ sa sb, p.2 (.bytes abcdefg) = .ok sa ∧ p.2 (.bytes abcdefh) = .ok sb
        ∧ F64.lt sa sb = false)
    ∧ (∃ p, Fns testMethods (.int64 int64_2p53) = .ok p
      ∧ p.1 (.int64 int64_2p53) (.int64 int64_2p53_succ) = .ok true
      ∧ ∃ sa sb, p.2 (.int64 int64_2p53) = .ok sa ∧ p.2 (.int64 int64_2p53_succ) = .ok sb
        ∧ F64.lt sa sb = false) := by
  refine ⟨⟨_, rfl, rfl, _, _, scoreBytes_eq abcdefg, scoreBytes_eq abcdefh, ?_⟩,
    ⟨_, rfl, rfl, _, _, rfl, rfl, ?_⟩⟩
  · have : packedSum abcdefg = packedSum abcdefh := by decide
    simp [this, F64.lt]
  · show F64.lt (F64.ofInt (2 ^ 53)) (F64.ofInt (2 ^ 53 + 1)) = false
    rw [F64.ofInt_2p53_succ]
    simp [F64.ofInt, F64.lt]

/-! ## C4: collisions of the score -/

theorem F64.ofF32_injective (x y : F32) (h : F64.ofF32 x = F64.ofF32 y) : x = y := by
  cases x <;> cases y <;> simp_all [F64.ofF32]

theorem F64.ne_of_ne (x y : F64) (h : x ≠ y) : F64.ne x y = true := by
  cases x <;> cases y <;> simp_all [F64.ne, F64.eq]

/-- C4, amended. For a sample of a built-in shape and two different values `a`,
`b` of that shape, the `score` returned by `Fns` gives different scores,
provided the score separates the two values: always for `float32`, `float64` and
the integer kinds of at most 32 bits; when both magnitudes are at most `2^53`
for the 64-bit integer kinds (and, for byte sequences and text, when the
six-byte windows differ). -/
theorem Fns_score_ne_of_ne {α : Type} (M : Methods α) (s a b : Value α)
    (p : LessFn α × ScoreFn α) (sh : Shape) (hsh : shapeOf M s = some sh)
    (hF : Fns M s = .ok p) (ha : shapeOf M a = some sh) (hb : shapeOf M b = some sh)
    (hne : a ≠ b) (hsep : separates sh a b) :
    ∃ sa sb, p.2 a = .ok sa ∧ p.2 b = .ok sb ∧ sa ≠ sb ∧ F64.ne sa sb = true := by
  suffices h : ∃ sa sb, p.2 a = .ok sa ∧ p.2 b = .ok sb ∧ sa ≠ sb by
    obtain ⟨sa, sb, h1, h2, h3⟩ := h
    exact ⟨sa, sb, h1, h2, h3, F64.ne_of_ne sa sb h3⟩
  cases s with
  | nil => simp [shapeOf, asFast?, asSlow?] at hsh
  | user ty x =>
    rcases shapeOf_user M ty x with h1 | h1 | h1 <;> rw [h1] at hsh <;>
      simp only [Option.some.injEq, reduceCtorEq] at hsh <;> subst hsh <;>
      exact absurd hsep (by simp [separates])
  | bytes d =>
    simp only [shapeOf, asFast?, asSlow?, Option.some.injEq] at hsh; subst hsh
    simp only [Fns, asFast?, asSlow?, Except.ok.injEq] at hF; subst hF
    obtain ⟨x, rfl⟩ := shapeOf_eq_bytes M a ha
    obtain ⟨y, rfl⟩ := shapeOf_eq_bytes M b hb
    simp only [separates, scoreWindow, ne_eq, Option.some.injEq] at hsep
    refine ⟨.fin (packedSum x : ℚ), .fin (packedSum y : ℚ), scoreBytes_eq x, scoreBytes_eq y, ?_⟩
    intro h
    simp only [F64.fin.injEq, Nat.cast_inj, packedSum_eq_pack] at h
    exact hsep (window_eq_of_pack_eq 6 x y h)
  | string d =>
    simp only [shapeOf, asFast?, asSlow?, Option.some.injEq] at hsh; subst hsh
    simp only [Fns, asFast?, asSlow?, Except.ok.injEq] at hF; subst hF
    obtain ⟨x, rfl⟩ := shapeOf_eq_string M a ha
    obtain ⟨y, rfl⟩ := shapeOf_eq_string M b hb
    simp only [separates, scoreWindow, ne_eq, Option.some.injEq] at hsep
    refine ⟨.fin (packedSum x : ℚ), .fin (packedSum y : ℚ), scoreBytes_eq x, scoreBytes_eq y, ?_⟩
    intro h
    simp only [F64.fin.injEq, Nat.cast_inj, packedSum_eq_pack] at h
    exact hsep (window_eq_of_pack_eq 6 x y h)
  | float32 d =>
    simp only [shapeOf, asFast?, asSlow?, Option.some.injEq] at hsh; subst hsh
    simp only [Fns, asFast?, asSlow?, Except.ok.injEq] at hF; subst hF
    obtain ⟨x, rfl⟩ := shapeOf_eq_float32 M a ha
    obtain ⟨y, rfl⟩ := shapeOf_eq_float32 M b hb
    exact ⟨_, _, rfl, rfl, fun h => hne (by rw [F64.ofF32_injective x y h])⟩
  | float64 d =>
    simp only [shapeOf, asFast?, asSlow?, Option.some.injEq] at hsh; subst hsh
    simp only [Fns, asFast?, asSlow?, Except.ok.injEq] at hF; subst hF
    obtain ⟨x, rfl⟩ := shapeOf_eq_float64 M a ha
    obtain ⟨y, rfl⟩ := shapeOf_eq_float64 M b hb
    exact ⟨_, _, rfl, rfl, fun h => hne (by rw [h])⟩
  | int d | int16 d | int32 d | int64 d | int8 d =>
    simp only [shapeOf, asFast?, asSlow?, Option.some.injEq] at hsh; subst hsh
    simp only [Fns, asFast?, asSlow?, Except.ok.injEq] at hF; subst hF
    obtain ⟨x, rfl⟩ := (by first
      | exact shapeOf_eq_int M a ha | exact shapeOf_eq_int16 M a ha
      | exact shapeOf_eq_int32 M a ha | exact shapeOf_eq_int64 M a ha
      | exact shapeOf_eq_int8 M a ha : ∃ x, a = _)
    obtain ⟨y, rfl⟩ := (by first
      | exact shapeOf_eq_int M b hb | exact shapeOf_eq_int16 M b hb
      | exact shapeOf_eq_int32 M b hb | exact shapeOf_eq_int64 M b hb
      | exact shapeOf_eq_int8 M b hb : ∃ y, b = _)
    have hx := x.property
    have hy := y.property
    simp only [separates, magnitude] at hsep
    norm_num at hx hy
    refine ⟨_, _, rfl, rfl, ?_⟩
    rw [F64.ofInt_exact _ (by omega) (by omega), F64.ofInt_exact _ (by omega) (by omega)]
    intro h
    simp only [F64.fin.injEq, Int.cast_inj] at h
    exact hne (by rw [Subtype.ext h])
  | uint d | uint16 d | uint32 d | uint64 d | uint8 d | uintptr d =>
    simp only [shapeOf, asFast?, asSlow?, Option.some.injEq] at hsh; subst hsh
    simp only [Fns, asFast?, asSlow?, Except.ok.injEq] at hF; subst hF
    obtain ⟨x, rfl⟩ := (by first
      | exact shapeOf_eq_uint M a ha | exact shapeOf_eq_uint16 M a ha
      | exact shapeOf_eq_uint32 M a ha | exact shapeOf_eq_uint64 M a ha
      | exact shapeOf_eq_uint8 M a ha | exact shapeOf_eq_uintptr M a ha : ∃ x, a = _)
    obtain ⟨y, rfl⟩ := (by first
      | exact shapeOf_eq_uint M b hb | exact shapeOf_eq_uint16 M b hb
      | exact shapeOf_eq_uint32 M b hb | exact shapeOf_eq_uint64 M b hb
      | exact shapeOf_eq_uint8 M b hb | exact shapeOf_eq_uintptr M b hb : ∃ y, b = _)
    have hx := x.isLt
    have hy := y.isLt
    simp only [separates, magnitude] at hsep
    norm_num at hx hy
    refine ⟨_, _, rfl, rfl, ?_⟩
    rw [F64.ofNat_exact _ (by omega), F64.ofNat_exact _ (by omega)]
    intro h
    simp only [F64.fin.injEq, Nat.cast_inj] at h
    exact hne (by rw [Fin.ext h])

end ord
namespace ord

/-- The pair `int32(0)`, `int32(1)` of the test file. -/
theorem Fns_score_ne_of_ne_witness :
    ∃ p, Fns testMethods (.int32 ⟨0, by decide⟩) = .ok p
      ∧ (Value.int32 ⟨0, by decide⟩ : Value (SInt 64)) ≠ .int32 ⟨1, by decide⟩
      ∧ separates Shape.int32 (.int32 ⟨0, by decide⟩ : Value (SInt 64)) (.int32 ⟨1, by decide⟩)
      ∧ ∃ sa sb, p.2 (.int32 ⟨0, by decide⟩) = .ok sa ∧ p.2 (.int32 ⟨1, by decide⟩) = .ok sb
        ∧ sa ≠ sb ∧ F64.ne sa sb = true :=
  ⟨_, rfl, by simp, trivial,
    Fns_score_ne_of_ne testMethods (.int32 ⟨0, by decide⟩) _ _ _ Shape.int32 rfl rfl rfl rfl
      (by simp) trivial⟩

/-- C4 as stated fails: the `int64` values `2^53` and `2^53 + 1` are different
and receive the same score. -/
theorem Fns_score_collision :
    ∃ p, Fns testMethods (.int64 int64_2p53) = .ok p
      ∧ (Value.int64 int64_2p53 : Value (SInt 64)) ≠ .int64 int64_2p53_succ
      ∧ ∃ sc, p.2 (.int64 int64_2p53) = .ok sc ∧ p.2 (.int64 int64_2p53_succ) = .ok sc
        ∧ F64.ne sc sc = false := by
  refine ⟨_, rfl, by simp [int64_2p53, int64_2p53_succ], F64.ofInt (2 ^ 53), rfl, ?_, ?_⟩
  · show Except.ok (F64.ofInt (2 ^ 53 + 1)) = Except.ok (F64.ofInt (2 ^ 53))
    rw [F64.ofInt_2p53_succ]
  · simp [F64.ofInt, F64.ne, F64.eq]

/-- What a value of each shape looks like. -/
theorem shapeOf_cases {α : Type} (M : Methods α) (a : Value α) (sh : Shape)
    (h : shapeOf M a = some sh) :
    match sh with
    | .fast => ∃ ty x l sc, a = .user ty x ∧ M.less ty = some l ∧ M.score ty = some sc
    | .slow => ∃ ty x l, a = .user ty x ∧ M.less ty = some l ∧ M.score ty = none
    | .bytes => ∃ d, a = .bytes d
    | .float32 => ∃ d, a = .float32 d
    | .float64 => ∃ d, a = .float64 d
    | .int => ∃ d, a = .int d
    | .int16 => ∃ d, a = .int16 d
    | .int32 => ∃ d, a = .int32 d
    | .int64 => ∃ d, a = .int64 d
    | .int8 => ∃ d, a = .int8 d
    | .string => ∃ d, a = .string d
    | .uint => ∃ d, a = .uint d
    | .uint16 => ∃ d, a = .uint16 d
    | .uint32 => ∃ d, a = .uint32 d
    | .uint64 => ∃ d, a = .uint64 d
    | .uint8 => ∃ d, a = .uint8 d
    | .uintptr => ∃ d, a = .uintptr d
    := by
  cases a with
  | nil => simp [shapeOf, asFast?, asSlow?] at h
  | user ty x =>
    cases hl : M.less ty <;> cases hsc : M.score ty <;>
      simp [shapeOf, asFast?, asSlow?, hl, hsc] at h <;> subst h <;> simp [hl, hsc]
  | _ => simp only [shapeOf, asFast?, asSlow?, Option.some.injEq] at h; subst h; exact ⟨_, rfl⟩

/-! ## C5: the reversed comparison -/

theorem bytesCompare_swap (x : List Byte) : ∀ y, bytesCompare x y > 0 ↔ bytesCompare y x < 0 := by
  induction x with
  | nil => intro y; cases y <;> simp [bytesCompare]
  | cons u us ih =>
    intro y
    cases y with
    | nil => simp [bytesCompare]
    | cons v vs =>
      simp only [bytesCompare]
      by_cases h1 : u < v
      · have h2 : ¬ v < u := not_lt.mpr (le_of_lt h1)
        simp [h1, h2]
      · by_cases h2 : v < u
        · simp [h1, h2]
        · simp [h1, h2, ih vs]

theorem scoreReturns_user {α : Type} (M : Methods α) (ty : String) (u : α)
    (l : α → Value α → Except Panic Bool) (sc : α → Except Panic F64)
    (hl : M.less ty = some l) (hsc : M.score ty = some sc)
    (h : scoreReturns M (.user ty u) = true) : ∃ z, sc u = .ok z := by
  simp only [scoreReturns, asFast?, hl, hsc] at h
  cases hr : sc u with
  | ok z => exact ⟨z, rfl⟩
  | error e => simp [hr] at h

/-- C5. The reversed comparison is the mirror image of the ascending one: for a
sample `s` of a supported shape and values `a`, `b` of that shape, the `less` of
`FnsReversed(s)` at `(a, b)` equals the `less` of `Fns(s)` at `(b, a)`, and the
`less` of `FnScoreReversed(s)` at `(a, b)` equals the `less` of `FnScore(s)` at
`(b, a)`; the latter two are returned whenever the call `s.Score()` they make
for a sample with the rich capability returns. -/
theorem FnsReversed_less_mirror {α : Type} (M : Methods α) (s a b : Value α) (sh : Shape)
    (hs : shapeOf M s = some sh) (ha : shapeOf M a = some sh) (hb : shapeOf M b = some sh) :
    ∃ p q, Fns M s = .ok p ∧ FnsReversed M s = .ok q ∧ q.1 a b = p.1 b a
      ∧ (scoreReturns M s = true →
          ∃ r t, FnScore M s = .ok r ∧ FnScoreReversed M s = .ok t ∧ t.1 a b = r.1 b a) := by
  cases s with
  | nil => simp [shapeOf, asFast?, asSlow?] at hs
  | user ty x =>
    cases hl : M.less ty <;> cases hsc : M.score ty <;>
      simp [shapeOf, asFast?, asSlow?, hl, hsc] at hs
    · simp only [Fns, FnsReversed, FnScore, FnScoreReversed, asFast?, asSlow?, hl, hsc]
      exact ⟨_, _, rfl, rfl, rfl, fun _ => ⟨_, _, rfl, rfl, rfl⟩⟩
    · rename_i l sc
      simp only [Fns, FnsReversed, asFast?, hl, hsc]
      refine ⟨_, _, rfl, rfl, rfl, fun h => ?_⟩
      obtain ⟨z, hz⟩ := scoreReturns_user M ty x l sc hl hsc h
      simp only [FnScore, FnScoreReversed, asFast?, hl, hsc, hz, bind, Except.bind, pure,
        Except.pure]
      exact ⟨_, _, rfl, rfl, rfl⟩
  | bytes d =>
    simp only [shapeOf, asFast?, asSlow?, Option.some.injEq] at hs; subst hs
    obtain ⟨x, rfl⟩ := shapeOf_eq_bytes M a ha
    obtain ⟨y, rfl⟩ := shapeOf_eq_bytes M b hb
    have e : (Except.ok (decide (bytesCompare x y > 0)) : Except Panic Bool)
        = .ok (decide (bytesCompare y x < 0)) := by
      simp only [bytesCompare_swap]
    simp only [Fns, FnsReversed, FnScore, FnScoreReversed, asFast?, asSlow?, scoreBytes_eq,
      bind, Except.bind, pure, Except.pure]
    exact ⟨_, _, rfl, rfl, e, fun _ => ⟨_, _, rfl, rfl, e⟩⟩
  | string d =>
    simp only [shapeOf, asFast?, asSlow?, Option.some.injEq] at hs; subst hs
    obtain ⟨x, rfl⟩ := shapeOf_cases M a _ ha
    obtain ⟨y, rfl⟩ := shapeOf_cases M b _ hb
    simp only [Fns, FnsReversed, FnScore, FnScoreReversed, asFast?, asSlow?, scoreBytes_eq,
      bind, Except.bind, pure, Except.pure]
    exact ⟨_, _, rfl, rfl, rfl, fun _ => ⟨_, _, rfl, rfl, rfl⟩⟩
  | _ =>
    simp only [shapeOf, asFast?, asSlow?, Option.some.injEq] at hs; subst hs
    obtain ⟨x, rfl⟩ := shapeOf_cases M a _ ha
    obtain ⟨y, rfl⟩ := shapeOf_cases M b _ hb
    exact ⟨_, _, rfl, rfl, rfl, fun _ => ⟨_, _, rfl, rfl, rfl⟩⟩

theorem F64.neg_zero : F64.neg (.fin 0) = .fin 0 := by
  simp [F64.neg]

/-! ## C6: the reversed score -/

/-- C6. The reversed score is the negation of the ascending score: for a sample
`s` of a supported shape and a value `x` of that shape, the outcome of
`FnsReversed(s).score(x)` is the outcome of `Fns(s).score(x)` negated; when the
call `x.Score()` returns, `Fns(s).score(x)` returns some `sx` and
`FnsReversed(s).score(x)` returns `-sx`; and when `s.Score()` returns, the score
returned by `FnScoreReversed(s)` is the negation of the score returned by
`FnScore(s)`.  Scores are compared as numbers (zero has no sign in `F64`). -/
theorem FnsReversed_score_neg {α : Type} (M : Methods α) (s x : Value α) (sh : Shape)
    (hs : shapeOf M s = some sh) (hx : shapeOf M x = some sh) :
    ∃ p q, Fns M s = .ok p ∧ FnsReversed M s = .ok q
      ∧ q.2 x = F64.neg <$> p.2 x
      ∧ (scoreReturns M x = true → ∃ sx, p.2 x = .ok sx ∧ q.2 x = .ok (F64.neg sx))
      ∧ (scoreReturns M s = true →
          ∃ r t, FnScore M s = .ok r ∧ FnScoreReversed M s = .ok t ∧ t.2 = F64.neg r.2) := by
  cases s with
  | nil => simp [shapeOf, asFast?, asSlow?] at hs
  | user ty u =>
    cases hl : M.less ty <;> cases hsc : M.score ty <;>
      simp [shapeOf, asFast?, asSlow?, hl, hsc] at hs <;> subst hs
    · obtain ⟨ty2, y, l2, rfl, h1, h2⟩ := shapeOf_cases M x _ hx
      simp only [Fns, FnsReversed, FnScore, FnScoreReversed, asFast?, asSlow?, hl, hsc]
      have e : (pure (F64.neg (F64.fin 0)) : Except Panic F64) = .ok (.fin 0) := by
        simp [pure, Except.pure, F64.neg_zero]
      exact ⟨_, _, rfl, rfl, by rw [e]; rfl, fun _ => ⟨_, rfl, e⟩,
        fun _ => ⟨_, _, rfl, rfl, by simp [F64.neg_zero]⟩⟩
    · rename_i l sc
      obtain ⟨ty2, y, l2, sc2, rfl, h1, h2⟩ := shapeOf_cases M x _ hx
      simp only [Fns, FnsReversed, asFast?, hl, hsc]
      refine ⟨_, _, rfl, rfl, ?_, fun h => ?_, fun h => ?_⟩
      · simp only [assertFast, asFast?, h1, h2, bind, Except.bind]
        cases sc2 y <;> rfl
      · obtain ⟨z, hz⟩ := scoreReturns_user M ty2 y l2 sc2 h1 h2 h
        refine ⟨z, ?_, ?_⟩ <;>
          simp [assertFast, asFast?, h1, h2, hz, bind, Except.bind, pure, Except.pure]
      · obtain ⟨z, hz⟩ := scoreReturns_user M ty u l sc hl hsc h
        simp only [FnScore, FnScoreReversed, asFast?, hl, hsc, hz, bind, Except.bind, pure,
          Except.pure]
        exact ⟨_, _, rfl, rfl, rfl⟩
  | bytes d =>
    simp only [shapeOf, asFast?, asSlow?, Option.some.injEq] at hs; subst hs
    obtain ⟨y, rfl⟩ := shapeOf_cases M x _ hx
    simp only [Fns, FnsReversed, FnScore, FnScoreReversed, asFast?, asSlow?, scoreBytes_eq,
      bind, Except.bind, pure, Except.pure]
    exact ⟨_, _, rfl, rfl, rfl, fun _ => ⟨_, rfl, rfl⟩, fun _ => ⟨_, _, rfl, rfl, rfl⟩⟩
  | string d =>
    simp only [shapeOf, asFast?, asSlow?, Option.some.injEq] at hs; subst hs
    obtain ⟨y, rfl⟩ := shapeOf_cases M x _ hx
    simp only [Fns, FnsReversed, FnScore, FnScoreReversed, asFast?, asSlow?, scoreBytes_eq,
      bind, Except.bind, pure, Except.pure]
    exact ⟨_, _, rfl, rfl, rfl, fun _ => ⟨_, rfl, rfl⟩, fun _ => ⟨_, _, rfl, rfl, rfl⟩⟩
  | _ =>
    simp only [shapeOf, asFast?, asSlow?, Option.some.injEq] at hs; subst hs
    obtain ⟨y, rfl⟩ := shapeOf_cases M x _ hx
    exact ⟨_, _, rfl, rfl, rfl, fun _ => ⟨_, rfl, rfl⟩, fun _ => ⟨_, _, rfl, rfl, rfl⟩⟩

/-! ## C7: the immediate score -/

/-- C7. The immediate-score entry points agree with the function-pair entry
points: for a value `v` of a supported shape, the outcome of `FnScore(v)` has the
score, or the panic, of `Fns(v).score(v)`; when the call `v.Score()` returns,
`FnScore(v)` returns the same `less` as `Fns(v)` and the score
`Fns(v).score(v)`; likewise `FnScoreReversed(v)` and `FnsReversed(v)`. -/
theorem FnScore_agrees_Fns {α : Type} (M : Methods α) (v : Value α) (sh : Shape)
    (hv : shapeOf M v = some sh) :
    ∃ p q, Fns M v = .ok p ∧ FnsReversed M v = .ok q
      ∧ Prod.snd <$> FnScore M v = p.2 v ∧ Prod.snd <$> FnScoreReversed M v = q.2 v
      ∧ (scoreReturns M v = true →
          ∃ r t, FnScore M v = .ok r ∧ r.1 = p.1 ∧ p.2 v = .ok r.2
            ∧ FnScoreReversed M v = .ok t ∧ t.1 = q.1 ∧ q.2 v = .ok t.2) := by
  cases v with
  | nil => simp [shapeOf, asFast?, asSlow?] at hv
  | user ty u =>
    cases hl : M.less ty <;> cases hsc : M.score ty <;>
      simp [shapeOf, asFast?, asSlow?, hl, hsc] at hv <;> subst hv
    · simp only [Fns, FnsReversed, FnScore, FnScoreReversed, asFast?, asSlow?, hl, hsc]
      exact ⟨_, _, rfl, rfl, rfl, rfl, fun _ => ⟨_, _, rfl, rfl, rfl, rfl, rfl, rfl⟩⟩
    · rename_i l sc
      simp only [Fns, FnsReversed, asFast?, hl, hsc]
      refine ⟨_, _, rfl, rfl, ?_, ?_, fun h => ?_⟩
      · simp only [FnScore, assertFast, asFast?, hl, hsc, bind, Except.bind]
        cases sc u <;> rfl
      · simp only [FnScoreReversed, assertFast, asFast?, hl, hsc, bind, Except.bind]
        cases sc u <;> rfl
      · obtain ⟨z, hz⟩ := scoreReturns_user M ty u l sc hl hsc h
        simp only [FnScore, FnScoreReversed, assertFast, asFast?, hl, hsc, hz, bind,
          Except.bind, pure, Except.pure]
        exact ⟨_, _, rfl, rfl, rfl, rfl, rfl, rfl⟩
  | bytes d =>
    simp only [Fns, FnsReversed, FnScore, FnScoreReversed, asFast?, asSlow?, scoreBytes_eq,
      bind, Except.bind, pure, Except.pure]
    exact ⟨_, _, rfl, rfl, rfl, rfl, fun _ => ⟨_, _, rfl, rfl, rfl, rfl, rfl, rfl⟩⟩
  | string d =>
    simp only [Fns, FnsReversed, FnScore, FnScoreReversed, asFast?, asSlow?, scoreBytes_eq,
      bind, Except.bind, pure, Except.pure]
    exact ⟨_, _, rfl, rfl, rfl, rfl, fun _ => ⟨_, _, rfl, rfl, rfl, rfl, rfl, rfl⟩⟩
  | _ => exact ⟨_, _, rfl, rfl, rfl, rfl, fun _ => ⟨_, _, rfl, rfl, rfl, rfl, rfl, rfl⟩⟩

/-- The pair `fast(0)`, `fast(1)` of the test file. -/
theorem FnsReversed_less_mirror_witness :
    shapeOf testMethods fast0 = some .fast ∧ shapeOf testMethods fast1 = some .fast
      ∧ scoreReturns testMethods fast0 = true
      ∧ ∃ p q r t, Fns testMethods fast0 = .ok p ∧ FnsReversed testMethods fast0 = .ok q
        ∧ q.1 fast1 fast0 = p.1 fast0 fast1
        ∧ FnScore testMethods fast0 = .ok r ∧ FnScoreReversed testMethods fast0 = .ok t
        ∧ t.1 fast1 fast0 = r.1 fast0 fast1 := by
  obtain ⟨p, q, h1, h2, h3, h4⟩ :=
    FnsReversed_less_mirror testMethods fast0 fast1 fast0 .fast rfl rfl rfl
  obtain ⟨r, t, h5, h6, h7⟩ := h4 rfl
  exact ⟨rfl, rfl, rfl, p, q, r, t, h1, h2, h3, h5, h6, h7⟩

/-- The pair `fast(0)`, `fast(1)` of the test file. -/
theorem FnsReversed_score_neg_witness :
    shapeOf testMethods fast0 = some .fast ∧ shapeOf testMethods fast1 = some .fast
      ∧ scoreReturns testMethods fast0 = true ∧ scoreReturns testMethods fast1 = true
      ∧ ∃ p q r t sx, Fns testMethods fast0 = .ok p ∧ FnsReversed testMethods fast0 = .ok q
        ∧ p.2 fast1 = .ok sx ∧ q.2 fast1 = .ok (F64.neg sx)
        ∧ FnScore testMethods fast0 = .ok r ∧ FnScoreReversed testMethods fast0 = .ok t
        ∧ t.2 = F64.neg r.2 := by
  obtain ⟨p, q, h1, h2, -, h3, h4⟩ :=
    FnsReversed_score_neg testMethods fast0 fast1 .fast rfl rfl
  obtain ⟨sx, h5, h6⟩ := h3 rfl
  obtain ⟨r, t, h7, h8, h9⟩ := h4 rfl
  exact ⟨rfl, rfl, rfl, rfl, p, q, r, t, sx, h1, h2, h5, h6, h7, h8, h9⟩

/-- The value `fast(1)` of the test file. -/
theorem FnScore_agrees_Fns_witness :
    shapeOf testMethods fast1 = some .fast ∧ scoreReturns testMethods fast1 = true
      ∧ ∃ p r q t, Fns testMethods fast1 = .ok p
        ∧ FnScore testMethods fast1 = .ok r ∧ r.1 = p.1 ∧ p.2 fast1 = .ok r.2
        ∧ FnsReversed testMethods fast1 = .ok q
        ∧ FnScoreReversed testMethods fast1 = .ok t ∧ t.1 = q.1 ∧ q.2 fast1 = .ok t.2 := by
  obtain ⟨p, q, h1, h2, -, -, h3⟩ := FnScore_agrees_Fns testMethods fast1 .fast rfl
  obtain ⟨r, t, h4, h5, h6, h7, h8, h9⟩ := h3 rfl
  exact ⟨rfl, rfl, p, r, q, t, h1, h4, h5, h6, h2, h7, h8, h9⟩

/-! ## C8: the unsupported shape -/

theorem unsupported_iff_shapeOf {α : Type} (M : Methods α) (v : Value α) :
    unsupported M v = true ↔ shapeOf M v = none := by
  cases v with
  | user ty x =>
    cases hl : M.less ty <;> cases hsc : M.score ty <;>
      simp [unsupported, shapeOf, asFast?, asSlow?, hl, hsc]
  | _ => simp [unsupported, shapeOf, asFast?, asSlow?]

theorem panics_of_unsupported {α : Type} (M : Methods α) (v : Value α)
    (h : unsupported M v = true) :
    Fns M v = .error (.str (cannotOrder (typeName v)))
      ∧ FnsReversed M v = .error (.str (cannotOrder (typeName v)))
      ∧ FnScore M v = .error (.str (cannotOrder (typeName v)))
      ∧ FnScoreReversed M v = .error (.str (cannotOrder (typeName v))) := by
  cases v with
  | nil => exact ⟨rfl, rfl, rfl, rfl⟩
  | user ty x =>
    have hl : M.less ty = none := by simpa [unsupported] using h
    simp [Fns, FnsReversed, FnScore, FnScoreReversed, asFast?, asSlow?, hl]
  | _ => simp [unsupported] at h

theorem Fns_returns_of_supported {α : Type} (M : Methods α) (v : Value α)
    (h : unsupported M v = false) :
    ∃ p q, Fns M v = .ok p ∧ FnsReversed M v = .ok q := by
  cases v with
  | nil => simp [unsupported] at h
  | user ty u =>
    cases hl : M.less ty <;> cases hsc : M.score ty <;>
      simp only [unsupported, hl, Option.isNone_none, Option.isNone_some,
        reduceCtorEq] at h <;>
      simp only [Fns, FnsReversed, asFast?, asSlow?, hl, hsc] <;>
      exact ⟨_, _, rfl, rfl⟩
  | _ => exact ⟨_, _, rfl, rfl⟩

/-- A panic of the call `v.Score()` aborts `FnScore` and `FnScoreReversed`. -/
theorem FnScore_panics_of_score {α : Type} (M : Methods α) (v : Value α) (f : Fast α)
    (e : Panic) (hf : asFast? M v = some f) (he : f.Score = .error e) :
    FnScore M v = .error e ∧ FnScoreReversed M v = .error e := by
  constructor
  · simp only [FnScore, hf, he, bind, Except.bind]
  · simp only [FnScoreReversed, hf, he, bind, Except.bind]

theorem FnScore_returns_iff {α : Type} (M : Methods α) (v : Value α) :
    ((∃ r, FnScore M v = .ok r) ↔ (unsupported M v = false ∧ scoreReturns M v = true))
      ∧ ((∃ t, FnScoreReversed M v = .ok t)
        ↔ (unsupported M v = false ∧ scoreReturns M v = true)) := by
  cases v with
  | nil => simp [unsupported, FnScore, FnScoreReversed, asFast?, asSlow?]
  | user ty u =>
    cases hl : M.less ty <;> cases hsc : M.score ty
    · simp [unsupported, FnScore, FnScoreReversed, asFast?, asSlow?, hl, hsc]
    · simp [unsupported, FnScore, FnScoreReversed, asFast?, asSlow?, hl, hsc]
    · simp [unsupported, scoreReturns, FnScore, FnScoreReversed, asFast?, asSlow?, hl, hsc]
    · rename_i l sc
      cases hr : sc u <;>
        simp [unsupported, scoreReturns, FnScore, FnScoreReversed, asFast?, asSlow?, hl, hsc,
          hr, bind, Except.bind, pure, Except.pure]
  | bytes d =>
    simp [unsupported, scoreReturns, FnScore, FnScoreReversed, asFast?, asSlow?, scoreBytes_eq,
      bind, Except.bind, pure, Except.pure]
  | string d =>
    simp [unsupported, scoreReturns, FnScore, FnScoreReversed, asFast?, asSlow?, scoreBytes_eq,
      bind, Except.bind, pure, Except.pure]
  | _ => simp [unsupported, scoreReturns, FnScore, FnScoreReversed, asFast?, asSlow?]

/-- C8, amended. `Fns` and `FnsReversed` fail exactly on the unsupported values:
for a value that is `nil` or whose type has no method `Less` and is not one of
the predeclared types of the switch, they panic with the message
`cannot order type T: no method Less(a, b interface{}) bool`, `T` the name of the
value's type, and for every other value they return.  `FnScore` and
`FnScoreReversed` panic with that message on every unsupported value; on a
supported value they return exactly when the call `v.Score()`, which they make
for a value with the rich capability, returns; a panic of that call aborts
them. -/
theorem fails_iff_unsupported {α : Type} (M : Methods α) (v : Value α) :
    (unsupported M v = true ↔
      Fns M v = .error (.str ("cannot order type " ++ typeName v
        ++ ": no method Less(a, b interface\x7b\x7d) bool")))
    ∧ (unsupported M v = true ↔
      FnsReversed M v = .error (.str ("cannot order type " ++ typeName v
        ++ ": no method Less(a, b interface\x7b\x7d) bool")))
    ∧ (unsupported M v = true →
      FnScore M v = .error (.str ("cannot order type " ++ typeName v
        ++ ": no method Less(a, b interface\x7b\x7d) bool")))
    ∧ (unsupported M v = true →
      FnScoreReversed M v = .error (.str ("cannot order type " ++ typeName v
        ++ ": no method Less(a, b interface\x7b\x7d) bool")))
    ∧ (unsupported M v = false ↔ ∃ p, Fns M v = .ok p)
    ∧ (unsupported M v = false ↔ ∃ p, FnsReversed M v = .ok p)
    ∧ ((unsupported M v = false ∧ scoreReturns M v = true) ↔ ∃ p, FnScore M v = .ok p)
    ∧ ((unsupported M v = false ∧ scoreReturns M v = true)
        ↔ ∃ p, FnScoreReversed M v = .ok p)
    ∧ (∀ f e, asFast? M v = some f → f.Score = .error e →
        FnScore M v = .error e ∧ FnScoreReversed M v = .error e) := by
  have h5 := (FnScore_returns_iff M v).1.symm
  have h6 := (FnScore_returns_iff M v).2.symm
  have h7 := FnScore_panics_of_score M v
  cases hu : unsupported M v
  · obtain ⟨p, q, h1, h2⟩ := Fns_returns_of_supported M v hu
    rw [hu] at h5 h6
    refine ⟨?_, ?_, ?_, ?_, ?_, ?_, h5, h6, h7⟩ <;> simp [h1, h2]
  · obtain ⟨h1, h2, h3, h4⟩ := panics_of_unsupported M v hu
    rw [hu] at h5 h6
    refine ⟨?_, ?_, ?_, ?_, ?_, ?_, h5, h6, h7⟩ <;> simp [h1, h2, h3, h4, cannotOrder]

/-- A value of a type without methods panics; `slow(0)` is supported. -/
theorem fails_iff_unsupported_witness :
    unsupported testMethods point0 = true
      ∧ Fns testMethods point0 = .error (.str
          "cannot order type ord.point: no method Less(a, b interface\x7b\x7d) bool")
      ∧ FnScore testMethods point0 = .error (.str
          "cannot order type ord.point: no method Less(a, b interface\x7b\x7d) bool")
      ∧ unsupported testMethods slow0 = false ∧ scoreReturns testMethods slow0 = true
      ∧ ∃ p, FnScore testMethods slow0 = .ok p :=
  ⟨rfl, ((fails_iff_unsupported testMethods point0).1).mp rfl,
    (fails_iff_unsupported testMethods point0).2.2.1 rfl, rfl, rfl,
    ((fails_iff_unsupported testMethods slow0).2.2.2.2.2.2.1).mp ⟨rfl, rfl⟩⟩

/-- C8 as stated fails: `moody(0)` has both `Less` and `Score`, so its shape is
supported and `Fns` returns, yet `FnScore` and `FnScoreReversed` do not return:
they call `Score()`, which panics. -/
theorem FnScore_panics_on_supported :
    unsupported moodyMethods moody0 = false ∧ shapeOf moodyMethods moody0 = some .fast
      ∧ (∃ p, Fns moodyMethods moody0 = .ok p)
      ∧ FnScore moodyMethods moody0 = .error (.str "no score")
      ∧ FnScoreReversed moodyMethods moody0 = .error (.str "no score")
      ∧ ¬ (∃ r, FnScore moodyMethods moody0 = .ok r)
      ∧ ¬ (∃ t, FnScoreReversed moodyMethods moody0 = .ok t) := by
  have h1 : FnScore moodyMethods moody0 = .error (.str "no score") := rfl
  have h2 : FnScoreReversed moodyMethods moody0 = .error (.str "no score") := rfl
  refine ⟨rfl, rfl, ⟨_, rfl⟩, h1, h2, ?_, ?_⟩
  · rintro ⟨r, hr⟩; rw [h1] at hr; cases hr
  · rintro ⟨t, ht⟩; rw [h2] at ht; cases ht

/-! ## C9 and C10: the two method shapes -/

/-- C9. The rich capability has priority over the plain one: a value `v` whose
type has both `Less` and `Score` also satisfies `Slow`, yet the type switch takes
the `Fast` case; the score function returned by `Fns(v)` returns `x.Score()` for
every `x` with both methods, and `FnScore(v)` returns `v.Score()` (a panic of
`Score()` is a panic of either). -/
theorem fast_before_slow {α : Type} (M : Methods α) (ty : String) (u : α)
    (l : α → Value α → Except Panic Bool) (sc : α → Except Panic F64)
    (hl : M.less ty = some l) (hsc : M.score ty = some sc) :
    (asSlow? M (.user ty u)).isSome = true ∧ shapeOf M (.user ty u) = some .fast
      ∧ ∃ p, Fns M (.user ty u) = .ok p
        ∧ (∀ ty2 y l2 sc2, M.less ty2 = some l2 → M.score ty2 = some sc2 →
            p.2 (.user ty2 y) = sc2 y)
        ∧ Prod.snd <$> FnScore M (.user ty u) = sc u
        ∧ (∀ z, sc u = .ok z → ∃ r, FnScore M (.user ty u) = .ok r ∧ r.2 = z) := by
  refine ⟨by simp [asSlow?, hl], by simp [shapeOf, asFast?, hl, hsc], ?_⟩
  simp only [Fns, FnScore, asFast?, hl, hsc]
  refine ⟨_, rfl, ?_, ?_, ?_⟩
  · intro ty2 y l2 sc2 h1 h2
    simp [assertFast, asFast?, h1, h2, bind, Except.bind]
  · simp only [bind, Except.bind]
    cases sc u <;> rfl
  · intro z hz
    simp only [hz, bind, Except.bind, pure, Except.pure]
    exact ⟨_, rfl, rfl⟩

/-- The type `fast` of the test file has both methods; `fast(1)` scores `1.0`. -/
theorem fast_before_slow_witness :
    ∃ l sc, testMethods.less "ord.fast" = some l ∧ testMethods.score "ord.fast" = some sc
      ∧ sc ⟨1, by decide⟩ = .ok (F64.ofInt 1)
      ∧ (asSlow? testMethods fast1).isSome = true ∧ shapeOf testMethods fast1 = some .fast
      ∧ ∃ p, Fns testMethods fast1 = .ok p
        ∧ (∀ ty2 y l2 sc2, testMethods.less ty2 = some l2 → testMethods.score ty2 = some sc2 →
            p.2 (.user ty2 y) = sc2 y)
        ∧ Prod.snd <$> FnScore testMethods fast1 = sc ⟨1, by decide⟩
        ∧ (∀ z, sc ⟨1, by decide⟩ = .ok z → ∃ r, FnScore testMethods fast1 = .ok r ∧ r.2 = z) :=
  ⟨_, _, rfl, rfl, rfl, fast_before_slow testMethods "ord.fast" ⟨1, by decide⟩ _ _ rfl rfl⟩

/-- C10. For the plain custom-ordering shape the score is the constant 0 in
both directions: for a sample whose type has `Less` and no `Score`, the score
functions returned by `Fns` and `FnsReversed` return 0 for every argument, and
`FnScore` and `FnScoreReversed` return the score 0; any two scores compare
equal, while `less(x, w)` is what `x.Less(w)` returns. -/
theorem slow_score_zero {α : Type} (M : Methods α) (ty : String) (u : α)
    (l : α → Value α → Except Panic Bool)
    (hl : M.less ty = some l) (hsc : M.score ty = none) :
    ∃ p q r t, Fns M (.user ty u) = .ok p ∧ FnsReversed M (.user ty u) = .ok q
      ∧ FnScore M (.user ty u) = .ok r ∧ FnScoreReversed M (.user ty u) = .ok t
      ∧ (∀ y, p.2 y = .ok (.fin 0)) ∧ (∀ y, q.2 y = .ok (.fin 0))
      ∧ r.2 = .fin 0 ∧ t.2 = .fin 0
      ∧ (∀ y w, ∃ sy sw, p.2 y = .ok sy ∧ p.2 w = .ok sw ∧ F64.eq sy sw = true)
      ∧ (∀ ty2 y l2 w, M.less ty2 = some l2 → p.1 (.user ty2 y) w = l2 y w) := by
  simp only [Fns, FnsReversed, FnScore, FnScoreReversed, asFast?, asSlow?, hl, hsc]
  refine ⟨_, _, _, _, rfl, rfl, rfl, rfl, fun _ => rfl, ?_, rfl, F64.neg_zero, ?_, ?_⟩
  · intro y; simp [pure, Except.pure, F64.neg_zero]
  · intro y w; exact ⟨_, _, rfl, rfl, by simp [F64.eq]⟩
  · intro ty2 y l2 w h1
    simp [assertSlow, asSlow?, h1, bind, Except.bind]

/-- The type `slow` of the test file has `Less` and no `Score`. -/
theorem slow_score_zero_witness :
    ∃ l, testMethods.less "ord.slow" = some l ∧ testMethods.score "ord.slow" = none
      ∧ ∃ p q r t, Fns testMethods slow0 = .ok p ∧ FnsReversed testMethods slow0 = .ok q
        ∧ FnScore testMethods slow0 = .ok r ∧ FnScoreReversed testMethods slow0 = .ok t
        ∧ (∀ y, p.2 y = .ok (.fin 0)) ∧ (∀ y, q.2 y = .ok (.fin 0))
        ∧ r.2 = .fin 0 ∧ t.2 = .fin 0
        ∧ (∀ y w, ∃ sy sw, p.2 y = .ok sy ∧ p.2 w = .ok sw ∧ F64.eq sy sw = true)
        ∧ (∀ ty2 y l2 w, testMethods.less ty2 = some l2 → p.1 (.user ty2 y) w = l2 y w) :=
  ⟨_, rfl, rfl, slow_score_zero testMethods "ord.slow" ⟨0, by decide⟩ _ rfl rfl⟩

/-! ## C11: the sample only selects the shape -/

/-- C11. The sample passed to `Fns` or `FnsReversed` is used only to determine
the shape: for two samples `s1`, `s2` of the same shape, the `less` functions
returned by `Fns(s1)` and `Fns(s2)` agree on every pair of arguments and the
`score` functions agree on every argument; likewise for `FnsReversed`. -/
theorem Fns_sample_irrelevant {α : Type} (M : Methods α) (s1 s2 : Value α) (sh : Shape)
    (h1 : shapeOf M s1 = some sh) (h2 : shapeOf M s2 = some sh) :
    ∃ p1 p2 q1 q2, Fns M s1 = .ok p1 ∧ Fns M s2 = .ok p2
      ∧ (∀ a b, p1.1 a b = p2.1 a b) ∧ (∀ x, p1.2 x = p2.2 x)
      ∧ FnsReversed M s1 = .ok q1 ∧ FnsReversed M s2 = .ok q2
      ∧ (∀ a b, q1.1 a b = q2.1 a b) ∧ (∀ x, q1.2 x = q2.2 x) := by
  cases s1 with
  | nil => simp [shapeOf, asFast?, asSlow?] at h1
  | user ty u =>
    cases hl : M.less ty <;> cases hsc : M.score ty <;>
      simp [shapeOf, asFast?, asSlow?, hl, hsc] at h1 <;> subst h1
    · obtain ⟨ty2, y, l2, rfl, e1, e2⟩ := shapeOf_cases M s2 _ h2
      simp only [Fns, FnsReversed, asFast?, asSlow?, hl, hsc, e1, e2]
      exact ⟨_, _, _, _, rfl, rfl, fun _ _ => rfl, fun _ => rfl, rfl, rfl,
        fun _ _ => rfl, fun _ => rfl⟩
    · obtain ⟨ty2, y, l2, sc2, rfl, e1, e2⟩ := shapeOf_cases M s2 _ h2
      simp only [Fns, FnsReversed, asFast?, asSlow?, hl, hsc, e1, e2]
      exact ⟨_, _, _, _, rfl, rfl, fun _ _ => rfl, fun _ => rfl, rfl, rfl,
        fun _ _ => rfl, fun _ => rfl⟩
  | _ =>
    simp only [shapeOf, asFast?, asSlow?, Option.some.injEq] at h1; subst h1
    obtain ⟨y, rfl⟩ := shapeOf_cases M s2 _ h2
    exact ⟨_, _, _, _, rfl, rfl, fun _ _ => rfl, fun _ => rfl, rfl, rfl,
      fun _ _ => rfl, fun _ => rfl⟩

/-- The samples `slow(0)` and `slow(1)` of the test file select the same functions. -/
theorem Fns_sample_irrelevant_witness :
    shapeOf testMethods slow0 = some .slow ∧ shapeOf testMethods slow1 = some .slow
      ∧ ∃ p1 p2 q1 q2, Fns testMethods slow0 = .ok p1 ∧ Fns testMethods slow1 = .ok p2
        ∧ (∀ a b, p1.1 a b = p2.1 a b) ∧ (∀ x, p1.2 x = p2.2 x)
        ∧ FnsReversed testMethods slow0 = .ok q1 ∧ FnsReversed testMethods slow1 = .ok q2
        ∧ (∀ a b, q1.1 a b = q2.1 a b) ∧ (∀ x, q1.2 x = q2.2 x) :=
  ⟨rfl, rfl, Fns_sample_irrelevant testMethods slow0 slow1 .slow rfl rfl⟩

/-! ## C12, C17, C18: the six-byte window -/

theorem pack_take (k : Nat) : ∀ x : List Byte, pack k (x.take k) = pack k x := by
  induction k with
  | zero => intro x; rfl
  | succ k ih =>
    intro x
    cases x with
    | nil => rfl
    | cons b bs => simp [pack, ih bs]

theorem packedSum_eq_of_take_eq (x y : List Byte) (h : x.take 6 = y.take 6) :
    packedSum x = packedSum y := by
  rw [packedSum_eq_pack, packedSum_eq_pack, ← pack_take 6 x, ← pack_take 6 y, h]

/-- C12. Sequences agreeing on their first 6 bytes receive the same score: if
`take 6 x = take 6 y`, the `score` returned by `Fns` for a byte-sequence sample
gives the same score to `x` and `y` as byte sequences, and the `score` returned
for a text sample gives the same score to `x` and `y` as strings. -/
theorem Fns_score_eq_of_take_eq {α : Type} (M : Methods α) (s : Value α) (x y : List Byte)
    (h : x.take 6 = y.take 6) :
    (shapeOf M s = some .bytes →
      ∃ p sc, Fns M s = .ok p ∧ p.2 (.bytes x) = .ok sc ∧ p.2 (.bytes y) = .ok sc)
    ∧ (shapeOf M s = some .string →
      ∃ p sc, Fns M s = .ok p ∧ p.2 (.string x) = .ok sc ∧ p.2 (.string y) = .ok sc) := by
  have hxy := packedSum_eq_of_take_eq x y h
  constructor
  · intro hs
    obtain ⟨d, rfl⟩ := shapeOf_eq_bytes M s hs
    refine ⟨_, .fin (packedSum x : ℚ), rfl, scoreBytes_eq x, ?_⟩
    rw [hxy]; exact scoreBytes_eq y
  · intro hs
    obtain ⟨d, rfl⟩ := shapeOf_eq_string M s hs
    refine ⟨_, .fin (packedSum x : ℚ), rfl, scoreBytes_eq x, ?_⟩
    rw [hxy]; exact scoreBytes_eq y

/-- The slices `"abcdefg"` and `"abcdefh"` differ at index 6 and score alike. -/
theorem Fns_score_eq_of_take_eq_witness :
    abcdefg.take 6 = abcdefh.take 6 ∧ abcdefg ≠ abcdefh
      ∧ shapeOf testMethods (.bytes abcdef) = some .bytes
      ∧ ∃ p sc, Fns testMethods (.bytes abcdef) = .ok p ∧ p.2 (.bytes abcdefg) = .ok sc
        ∧ p.2 (.bytes abcdefh) = .ok sc :=
  ⟨by decide, by decide, rfl,
    (Fns_score_eq_of_take_eq testMethods (.bytes abcdef) abcdefg abcdefh (by decide)).1 rfl⟩

theorem pack_lt_of_first_diff (i : Nat) : ∀ (k : Nat) (a b : List Byte) (ha : i < a.length)
    (hb : i < b.length), i < k → a.take i = b.take i → a.get ⟨i, ha⟩ < b.get ⟨i, hb⟩ →
    pack k a < pack k b := by
  induction i with
  | zero =>
    intro k a b ha hb hk _ hlt
    cases a with
    | nil => simp at ha
    | cons x xs =>
      cases b with
      | nil => simp at hb
      | cons y ys =>
        cases k with
        | zero => omega
        | succ k =>
          simp only [List.get_eq_getElem, List.getElem_cons_zero] at hlt
          have h1 := pack_lt k xs
          have h2 : x.val + 1 ≤ y.val := hlt
          have h3 : (x.val + 1) * 256 ^ k ≤ y.val * 256 ^ k := Nat.mul_le_mul_right _ h2
          have h4 : (x.val + 1) * 256 ^ k = x.val * 256 ^ k + 256 ^ k := by ring
          simp only [pack]
          omega
  | succ i ih =>
    intro k a b ha hb hk hpre hlt
    cases a with
    | nil => simp at ha
    | cons x xs =>
      cases b with
      | nil => simp at hb
      | cons y ys =>
        cases k with
        | zero => omega
        | succ k =>
          simp only [List.take_succ_cons, List.cons.injEq] at hpre
          obtain ⟨rfl, hpre⟩ := hpre
          simp only [List.length_cons] at ha hb
          have := ih k xs ys (by omega) (by omega) (by omega) hpre
            (by simpa [List.get_eq_getElem] using hlt)
          simp only [pack]
          omega

/-- C17. The byte-sequence score is strictly increasing when the first
difference falls inside the 6-byte window: if `a` and `b` are both longer than
`i < 6`, agree on all bytes before `i`, and `a[i] < b[i]`, then
`scoreBytes(a) < scoreBytes(b)`. -/
theorem scoreBytes_lt_of_first_diff (a b : List Byte) (i : Nat) (hi : i < 6)
    (ha : i < a.length) (hb : i < b.length) (hpre : a.take i = b.take i)
    (hlt : a.get ⟨i, ha⟩ < b.get ⟨i, hb⟩) :
    ∃ sa sb, scoreBytes a = .ok sa ∧ scoreBytes b = .ok sb ∧ F64.lt sa sb = true := by
  refine ⟨_, _, scoreBytes_eq a, scoreBytes_eq b, ?_⟩
  rw [F64.lt_fin_natCast, packedSum_eq_pack, packedSum_eq_pack]
  simpa using pack_lt_of_first_diff i 6 a b ha hb hi hpre hlt

/-- The pair `"abcdef"`, `"abcdeg"` of the test file differs at index 5. -/
theorem scoreBytes_lt_of_first_diff_witness :
    abcdef.take 5 = abcdeg.take 5
      ∧ abcdef.get ⟨5, by decide⟩ < abcdeg.get ⟨5, by decide⟩
      ∧ ∃ sa sb, scoreBytes abcdef = .ok sa ∧ scoreBytes abcdeg = .ok sb
        ∧ F64.lt sa sb = true :=
  ⟨by decide, by decide,
    scoreBytes_lt_of_first_diff abcdef abcdeg 5 (by decide) (by decide) (by decide)
      (by decide) (by decide)⟩

theorem F64.le_neg_fin_natCast (m n : Nat) (h : n ≤ m) :
    F64.le (F64.neg (.fin (m : ℚ))) (F64.neg (.fin (n : ℚ))) = true := by
  simp only [F64.neg, F64.le, F64.lt, F64.eq, Bool.or_eq_true, decide_eq_true_eq, neg_lt_neg_iff,
    neg_inj, Nat.cast_lt, Nat.cast_inj]
  omega

/-- C18. In the descending direction the score does not reverse the
comparison: for a byte-sequence or text sample, whenever the `less` returned by
`FnsReversed` says `less(a, b)`, the `score` returned by `FnsReversed` gives
`score(a) <= score(b)`. -/
theorem FnsReversed_score_le_of_less {α : Type} (M : Methods α) (s a b : Value α)
    (p : LessFn α × ScoreFn α)
    (hs : shapeOf M s = some .bytes ∨ shapeOf M s = some .string)
    (hF : FnsReversed M s = .ok p) (hlt : p.1 a b = .ok true) :
    ∃ sa sb, p.2 a = .ok sa ∧ p.2 b = .ok sb ∧ F64.le sa sb = true := by
  rcases hs with hs | hs
  · obtain ⟨d, rfl⟩ := shapeOf_eq_bytes M s hs
    simp only [FnsReversed, asFast?, asSlow?, Except.ok.injEq] at hF
    subst hF
    simp only [bind_eq_ok, assertBytes_eq_ok] at hlt
    obtain ⟨x, rfl, y, rfl, hxy⟩ := hlt
    simp only [pure, Except.pure, Except.ok.injEq, decide_eq_true_eq, bytesCompare_swap] at hxy
    refine ⟨F64.neg (.fin (packedSum x : ℚ)), F64.neg (.fin (packedSum y : ℚ)), ?_, ?_,
      F64.le_neg_fin_natCast _ _ ?_⟩
    · simp only [assertBytes, bind, Except.bind, scoreBytes_eq, pure, Except.pure]
    · simp only [assertBytes, bind, Except.bind, scoreBytes_eq, pure, Except.pure]
    · rw [packedSum_eq_pack, packedSum_eq_pack]; exact pack_mono 6 y x hxy
  · obtain ⟨d, rfl⟩ := shapeOf_eq_string M s hs
    simp only [FnsReversed, asFast?, asSlow?, Except.ok.injEq] at hF
    subst hF
    simp only [bind_eq_ok, assertString_eq_ok] at hlt
    obtain ⟨x, rfl, y, rfl, hxy⟩ := hlt
    simp only [pure, Except.pure, Except.ok.injEq, stringGreater, stringLess_iff] at hxy
    refine ⟨F64.neg (.fin (packedSum x : ℚ)), F64.neg (.fin (packedSum y : ℚ)), ?_, ?_,
      F64.le_neg_fin_natCast _ _ ?_⟩
    · simp only [assertString, bind, Except.bind, scoreBytes_eq, pure, Except.pure]
    · simp only [assertString, bind, Except.bind, scoreBytes_eq, pure, Except.pure]
    · rw [packedSum_eq_pack, packedSum_eq_pack]; exact pack_mono 6 y x hxy

/-- The strings `"abcdeg"` and `"abcdef"`, in descending order. -/
theorem FnsReversed_score_le_of_less_witness :
    ∃ p, FnsReversed testMethods (.string abcdeg) = .ok p
      ∧ p.1 (.string abcdeg) (.string abcdef) = .ok true
      ∧ ∃ sa sb, p.2 (.string abcdeg) = .ok sa ∧ p.2 (.string abcdef) = .ok sb
        ∧ F64.le sa sb = true :=
  ⟨_, rfl, rfl,
    FnsReversed_score_le_of_less testMethods (.string abcdeg) _ _ _ (Or.inr rfl) rfl rfl⟩

/-! ## C15: text as bytes -/

theorem stringLess_eq (s t : List Byte) : stringLess s t = decide (bytesCompare s t < 0) := by
  rw [Bool.eq_iff_iff]; simp [stringLess_iff]

/-- C15. The text shape behaves as the byte-sequence shape applied to the
string's bytes: for strings `s`, `t`, the `score` returned by `Fns` for a text
sample gives `scoreBytes` of the bytes of `s`, which is the score the
byte-sequence shape gives them, and the text `less(s, t)` returns what the
byte-sequence `less` returns on the bytes of `s` and `t`. -/
theorem Fns_string_as_bytes {α : Type} (M : Methods α) (s0 b0 : Value α) (s t : List Byte)
    (hs : shapeOf M s0 = some .string) (hb : shapeOf M b0 = some .bytes) :
    ∃ p q, Fns M s0 = .ok p ∧ Fns M b0 = .ok q ∧ p.2 (.string s) = scoreBytes s
      ∧ p.2 (.string s) = q.2 (.bytes s)
      ∧ p.1 (.string s) (.string t) = q.1 (.bytes s) (.bytes t)
      ∧ (p.1 (.string s) (.string t) = .ok true ↔ q.1 (.bytes s) (.bytes t) = .ok true) := by
  obtain ⟨d, rfl⟩ := shapeOf_eq_string M s0 hs
  obtain ⟨e, rfl⟩ := shapeOf_eq_bytes M b0 hb
  have h : (Except.ok (stringLess s t) : Except Panic Bool)
      = .ok (decide (bytesCompare s t < 0)) := by rw [stringLess_eq]
  exact ⟨_, _, rfl, rfl, rfl, rfl, h,
    Eq.to_iff (congrArg (fun z => z = Except.ok true) h)⟩

/-- The strings `"abcdef"` and `"abcdeg"` against the same bytes as slices. -/
theorem Fns_string_as_bytes_witness :
    shapeOf testMethods (.string abcdef) = some .string
      ∧ shapeOf testMethods (.bytes abcdef) = some .bytes
      ∧ ∃ p q, Fns testMethods (.string abcdef) = .ok p ∧ Fns testMethods (.bytes abcdef) = .ok q
        ∧ p.2 (.string abcdef) = scoreBytes abcdef
        ∧ p.2 (.string abcdef) = q.2 (.bytes abcdef)
        ∧ p.1 (.string abcdef) (.string abcdeg) = q.1 (.bytes abcdef) (.bytes abcdeg)
        ∧ (p.1 (.string abcdef) (.string abcdeg) = .ok true
            ↔ q.1 (.bytes abcdef) (.bytes abcdeg) = .ok true) :=
  ⟨rfl, rfl, Fns_string_as_bytes testMethods (.string abcdef) (.bytes abcdef) abcdef abcdeg
    rfl rfl⟩

/-! ## C16: the comparison is a strict order -/

theorem bytesCompare_self (x : List Byte) : bytesCompare x x = 0 := by
  induction x with
  | nil => rfl
  | cons u us ih => simp [bytesCompare, ih]

theorem bytesCompare_asymm (x y : List Byte) (h : bytesCompare x y < 0) :
    ¬ bytesCompare y x < 0 := by
  intro h2
  have := (bytesCompare_swap x y).mpr h2
  omega

theorem F32.lt_irrefl_f32 (x : F32) : F32.lt x x = false := by
  cases x <;> simp [F32.lt]

theorem F32.lt_asymm_f32 (x y : F32) (h : F32.lt x y = true) : F32.lt y x = false := by
  cases x <;> cases y <;> simp_all [F32.lt]
  exact le_of_lt h

theorem F64.lt_irrefl_f64 (x : F64) : F64.lt x x = false := by
  cases x <;> simp [F64.lt]

theorem F64.lt_asymm_f64 (x y : F64) (h : F64.lt x y = true) : F64.lt y x = false := by
  cases x <;> cases y <;> simp_all [F64.lt]
  exact le_of_lt h

/-- C16. For every built-in shape the `less` returned by `Fns` is a strict order
in the sense the tests check: for values `a`, `b` of the sample's shape,
`less(a, a)` is false, and if `less(a, b)` is true then `less(b, a)` is false. -/
theorem Fns_less_strict {α : Type} (M : Methods α) (s a b : Value α) (sh : Shape)
    (p : LessFn α × ScoreFn α) (hs : shapeOf M s = some sh)
    (hfast : sh ≠ .fast) (hslow : sh ≠ .slow)
    (ha : shapeOf M a = some sh) (hb : shapeOf M b = some sh) (hF : Fns M s = .ok p) :
    p.1 a a = .ok false ∧ (p.1 a b = .ok true → p.1 b a = .ok false) := by
  cases s with
  | nil => simp [shapeOf, asFast?, asSlow?] at hs
  | user ty u =>
    rcases shapeOf_user M ty u with h1 | h1 | h1 <;> rw [h1] at hs <;>
      simp only [Option.some.injEq, reduceCtorEq] at hs <;> subst hs <;> contradiction
  | bytes d =>
    simp only [shapeOf, asFast?, asSlow?, Option.some.injEq] at hs; subst hs
    simp only [Fns, asFast?, asSlow?, Except.ok.injEq] at hF; subst hF
    obtain ⟨x, rfl⟩ := shapeOf_cases M a _ ha
    obtain ⟨y, rfl⟩ := shapeOf_cases M b _ hb
    simp only [assertBytes, bind, Except.bind, pure, Except.pure, Except.ok.injEq,
      decide_eq_true_eq, decide_eq_false_iff_not, bytesCompare_self]
    exact ⟨by omega, bytesCompare_asymm x y⟩
  | string d =>
    simp only [shapeOf, asFast?, asSlow?, Option.some.injEq] at hs; subst hs
    simp only [Fns, asFast?, asSlow?, Except.ok.injEq] at hF; subst hF
    obtain ⟨x, rfl⟩ := shapeOf_cases M a _ ha
    obtain ⟨y, rfl⟩ := shapeOf_cases M b _ hb
    simp only [assertString, bind, Except.bind, pure, Except.pure, Except.ok.injEq,
      stringLess_eq, decide_eq_true_eq, decide_eq_false_iff_not, bytesCompare_self]
    exact ⟨by omega, bytesCompare_asymm x y⟩
  | float32 d =>
    simp only [shapeOf, asFast?, asSlow?, Option.some.injEq] at hs; subst hs
    simp only [Fns, asFast?, asSlow?, Except.ok.injEq] at hF; subst hF
    obtain ⟨x, rfl⟩ := shapeOf_cases M a _ ha
    obtain ⟨y, rfl⟩ := shapeOf_cases M b _ hb
    simp only [assertFloat32, bind, Except.bind, pure, Except.pure, Except.ok.injEq]
    exact ⟨F32.lt_irrefl_f32 x, F32.lt_asymm_f32 x y⟩
  | float64 d =>
    simp only [shapeOf, asFast?, asSlow?, Option.some.injEq] at hs; subst hs
    simp only [Fns, asFast?, asSlow?, Except.ok.injEq] at hF; subst hF
    obtain ⟨x, rfl⟩ := shapeOf_cases M a _ ha
    obtain ⟨y, rfl⟩ := shapeOf_cases M b _ hb
    simp only [assertFloat64, bind, Except.bind, pure, Except.pure, Except.ok.injEq]
    exact ⟨F64.lt_irrefl_f64 x, F64.lt_asymm_f64 x y⟩
  | int d | int16 d | int32 d | int64 d | int8 d =>
    simp only [shapeOf, asFast?, asSlow?, Option.some.injEq] at hs; subst hs
    simp only [Fns, asFast?, asSlow?, Except.ok.injEq] at hF; subst hF
    obtain ⟨x, rfl⟩ := shapeOf_cases M a _ ha
    obtain ⟨y, rfl⟩ := shapeOf_cases M b _ hb
    simp only [assertInt, assertInt16, assertInt32, assertInt64, assertInt8, bind, Except.bind,
      pure, Except.pure, Except.ok.injEq, decide_eq_true_eq, decide_eq_false_iff_not]
    exact ⟨by omega, by omega⟩
  | uint d | uint16 d | uint32 d | uint64 d | uint8 d | uintptr d =>
    simp only [shapeOf, asFast?, asSlow?, Option.some.injEq] at hs; subst hs
    simp only [Fns, asFast?, asSlow?, Except.ok.injEq] at hF; subst hF
    obtain ⟨x, rfl⟩ := shapeOf_cases M a _ ha
    obtain ⟨y, rfl⟩ := shapeOf_cases M b _ hb
    simp only [assertUint, assertUint16, assertUint32, assertUint64, assertUint8, assertUintptr,
      bind, Except.bind, pure, Except.pure, Except.ok.injEq, decide_eq_true_eq,
      decide_eq_false_iff_not]
    exact ⟨lt_irrefl x, fun h => lt_asymm h⟩

/-- The pair `float64(0)`, `float64(1)` of the test file. -/
theorem Fns_less_strict_witness :
    ∃ p, Fns testMethods (.float64 (.fin 0)) = .ok p
      ∧ p.1 (.float64 (.fin 0)) (.float64 (.fin 1)) = .ok true
      ∧ p.1 (.float64 (.fin 0)) (.float64 (.fin 0)) = .ok false
      ∧ p.1 (.float64 (.fin 1)) (.float64 (.fin 0)) = .ok false :=
  ⟨_, rfl, rfl,
    (Fns_less_strict testMethods (.float64 (.fin 0)) (.float64 (.fin 0))
      (.float64 (.fin 1)) .float64 _ rfl (by decide) (by decide) rfl rfl rfl).1,
    (Fns_less_strict testMethods (.float64 (.fin 0)) (.float64 (.fin 0))
      (.float64 (.fin 1)) .float64 _ rfl (by decide) (by decide) rfl rfl rfl).2 rfl⟩

/-! ## C19: arguments of another shape -/

theorem bind2_error {ε α β γ : Type} (ea : Except ε α) (eb : Except ε β) (f : α → β → γ)
    (h : (∃ e, ea = .error e) ∨ (∃ e, eb = .error e)) :
    ∃ e, (do let x ← ea; let y ← eb; pure (f x y)) = Except.error e := by
  cases ea with
  | error e => exact ⟨e, rfl⟩
  | ok x =>
    rcases h with ⟨e, h⟩ | ⟨e, h⟩
    · cases h
    · subst h; exact ⟨e, rfl⟩

theorem assertBytes_error {α : Type} (M : Methods α) (v : Value α)
    (h : shapeOf M v ≠ some .bytes) : ∃ e, assertBytes v = .error e := by
  cases v with
  | bytes d => exact absurd rfl h
  | _ => exact ⟨_, rfl⟩

theorem assertFloat32_error {α : Type} (M : Methods α) (v : Value α)
    (h : shapeOf M v ≠ some .float32) : ∃ e, assertFloat32 v = .error e := by
  cases v with
  | float32 d => exact absurd rfl h
  | _ => exact ⟨_, rfl⟩

theorem assertFloat64_error {α : Type} (M : Methods α) (v : Value α)
    (h : shapeOf M v ≠ some .float64) : ∃ e, assertFloat64 v = .error e := by
  cases v with
  | float64 d => exact absurd rfl h
  | _ => exact ⟨_, rfl⟩

theorem assertInt_error {α : Type} (M : Methods α) (v : Value α)
    (h : shapeOf M v ≠ some .int) : ∃ e, assertInt v = .error e := by
  cases v with
  | int d => exact absurd rfl h
  | _ => exact ⟨_, rfl⟩

theorem assertInt16_error {α : Type} (M : Methods α) (v : Value α)
    (h : shapeOf M v ≠ some .int16) : ∃ e, assertInt16 v = .error e := by
  cases v with
  | int16 d => exact absurd rfl h
  | _ => exact ⟨_, rfl⟩

theorem assertInt32_error {α : Type} (M : Methods α) (v : Value α)
    (h : shapeOf M v ≠ some .int32) : ∃ e, assertInt32 v = .error e := by
  cases v with
  | int32 d => exact absurd rfl h
  | _ => exact ⟨_, rfl⟩

theorem assertInt64_error {α : Type} (M : Methods α) (v : Value α)
    (h : shapeOf M v ≠ some .int64) : ∃ e, assertInt64 v = .error e := by
  cases v with
  | int64 d => exact absurd rfl h
  | _ => exact ⟨_, rfl⟩

theorem assertInt8_error {α : Type} (M : Methods α) (v : Value α)
    (h : shapeOf M v ≠ some .int8) : ∃ e, assertInt8 v = .error e := by
  cases v with
  | int8 d => exact absurd rfl h
  | _ => exact ⟨_, rfl⟩

theorem assertString_error {α : Type} (M : Methods α) (v : Value α)
    (h : shapeOf M v ≠ some .string) : ∃ e, assertString v = .error e := by
  cases v with
  | string d => exact absurd rfl h
  | _ => exact ⟨_, rfl⟩

theorem assertUint_error {α : Type} (M : Methods α) (v : Value α)
    (h : shapeOf M v ≠ some .uint) : ∃ e, assertUint v = .error e := by
  cases v with
  | uint d => exact absurd rfl h
  | _ => exact ⟨_, rfl⟩

theorem assertUint16_error {α : Type} (M : Methods α) (v : Value α)
    (h : shapeOf M v ≠ some .uint16) : ∃ e, assertUint16 v = .error e := by
  cases v with
  | uint16 d => exact absurd rfl h
  | _ => exact ⟨_, rfl⟩

theorem assertUint32_error {α : Type} (M : Methods α) (v : Value α)
    (h : shapeOf M v ≠ some .uint32) : ∃ e, assertUint32 v = .error e := by
  cases v with
  | uint32 d => exact absurd rfl h
  | _ => exact ⟨_, rfl⟩

theorem assertUint64_error {α : Type} (M : Methods α) (v : Value α)
    (h : shapeOf M v ≠ some .uint64) : ∃ e, assertUint64 v = .error e := by
  cases v with
  | uint64 d => exact absurd rfl h
  | _ => exact ⟨_, rfl⟩

theorem assertUint8_error {α : Type} (M : Methods α) (v : Value α)
    (h : shapeOf M v ≠ some .uint8) : ∃ e, assertUint8 v = .error e := by
  cases v with
  | uint8 d => exact absurd rfl h
  | _ => exact ⟨_, rfl⟩

theorem assertUintptr_error {α : Type} (M : Methods α) (v : Value α)
    (h : shapeOf M v ≠ some .uintptr) : ∃ e, assertUintptr v = .error e := by
  cases v with
  | uintptr d => exact absurd rfl h
  | _ => exact ⟨_, rfl⟩

/-- C19. For every built-in shape, the `less` returned by any of the four
operations panics, and returns no boolean, on a pair in which at least one
argument is of another shape than the sample. -/
theorem less_panics_on_mixed {α : Type} (M : Methods α) (s a b : Value α) (sh : Shape)
    (hs : shapeOf M s = some sh) (hfast : sh ≠ .fast) (hslow : sh ≠ .slow)
    (hmix : shapeOf M a ≠ some sh ∨ shapeOf M b ≠ some sh) :
    ∃ p q r t, Fns M s = .ok p ∧ FnsReversed M s = .ok q ∧ FnScore M s = .ok r
      ∧ FnScoreReversed M s = .ok t
      ∧ (∃ e, p.1 a b = .error e) ∧ (∃ e, q.1 a b = .error e)
      ∧ (∃ e, r.1 a b = .error e) ∧ (∃ e, t.1 a b = .error e) := by
  cases s with
  | nil => simp [shapeOf, asFast?, asSlow?] at hs
  | user ty u =>
    rcases shapeOf_user M ty u with h1 | h1 | h1 <;> rw [h1] at hs <;>
      simp only [Option.some.injEq, reduceCtorEq] at hs <;> subst hs <;> contradiction
  | bytes d =>
    simp only [shapeOf, asFast?, asSlow?, Option.some.injEq] at hs; subst hs
    have h : (∃ e, assertBytes a = .error e) ∨ (∃ e, assertBytes b = .error e) :=
      hmix.imp (assertBytes_error M a) (assertBytes_error M b)
    simp only [Fns, FnsReversed, FnScore, FnScoreReversed, asFast?, asSlow?, scoreBytes_eq,
      bind, Except.bind, pure, Except.pure]
    exact ⟨_, _, _, _, rfl, rfl, rfl, rfl, bind2_error _ _ _ h, bind2_error _ _ _ h,
      bind2_error _ _ _ h, bind2_error _ _ _ h⟩
  | float32 d =>
    simp only [shapeOf, asFast?, asSlow?, Option.some.injEq] at hs; subst hs
    have h : (∃ e, assertFloat32 a = .error e) ∨ (∃ e, assertFloat32 b = .error e) :=
      hmix.imp (assertFloat32_error M a) (assertFloat32_error M b)
    simp only [Fns, FnsReversed, FnScore, FnScoreReversed, asFast?, asSlow?, scoreBytes_eq,
      bind, Except.bind, pure, Except.pure]
    exact ⟨_, _, _, _, rfl, rfl, rfl, rfl, bind2_error _ _ _ h, bind2_error _ _ _ h,
      bind2_error _ _ _ h, bind2_error _ _ _ h⟩
  | float64 d =>
    simp only [shapeOf, asFast?, asSlow?, Option.some.injEq] at hs; subst hs
    have h : (∃ e, assertFloat64 a = .error e) ∨ (∃ e, assertFloat64 b = .error e) :=
      hmix.imp (assertFloat64_error M a) (assertFloat64_error M b)
    simp only [Fns, FnsReversed, FnScore, FnScoreReversed, asFast?, asSlow?, scoreBytes_eq,
      bind, Except.bind, pure, Except.pure]
    exact ⟨_, _, _, _, rfl, rfl, rfl, rfl, bind2_error _ _ _ h, bind2_error _ _ _ h,
      bind2_error _ _ _ h, bind2_error _ _ _ h⟩
  | int d =>
    simp only [shapeOf, asFast?, asSlow?, Option.some.injEq] at hs; subst hs
    have h : (∃ e, assertInt a = .error e) ∨ (∃ e, assertInt b = .error e) :=
      hmix.imp (assertInt_error M a) (assertInt_error M b)
    simp only [Fns, FnsReversed, FnScore, FnScoreReversed, asFast?, asSlow?, scoreBytes_eq,
      bind, Except.bind, pure, Except.pure]
    exact ⟨_, _, _, _, rfl, rfl, rfl, rfl, bind2_error _ _ _ h, bind2_error _ _ _ h,
      bind2_error _ _ _ h, bind2_error _ _ _ h⟩
  | int16 d =>
    simp only [shapeOf, asFast?, asSlow?, Option.some.injEq] at hs; subst hs
    have h : (∃ e, assertInt16 a = .error e) ∨ (∃ e, assertInt16 b = .error e) :=
      hmix.imp (assertInt16_error M a) (assertInt16_error M b)
    simp only [Fns, FnsReversed, FnScore, FnScoreReversed, asFast?, asSlow?, scoreBytes_eq,
      bind, Except.bind, pure, Except.pure]
    exact ⟨_, _, _, _, rfl, rfl, rfl, rfl, bind2_error _ _ _ h, bind2_error _ _ _ h,
      bind2_error _ _ _ h, bind2_error _ _ _ h⟩
  | int32 d =>
    simp only [shapeOf, asFast?, asSlow?, Option.some.injEq] at hs; subst hs
    have h : (∃ e, assertInt32 a = .error e) ∨ (∃ e, assertInt32 b = .error e) :=
      hmix.imp (assertInt32_error M a) (assertInt32_error M b)
    simp only [Fns, FnsReversed, FnScore, FnScoreReversed, asFast?, asSlow?, scoreBytes_eq,
      bind, Except.bind, pure, Except.pure]
    exact ⟨_, _, _, _, rfl, rfl, rfl, rfl, bind2_error _ _ _ h, bind2_error _ _ _ h,
      bind2_error _ _ _ h, bind2_error _ _ _ h⟩
  | int64 d =>
    simp only [shapeOf, asFast?, asSlow?, Option.some.injEq] at hs; subst hs
    have h : (∃ e, assertInt64 a = .error e) ∨ (∃ e, assertInt64 b = .error e) :=
      hmix.imp (assertInt64_error M a) (assertInt64_error M b)
    simp only [Fns, FnsReversed, FnScore, FnScoreReversed, asFast?, asSlow?, scoreBytes_eq,
      bind, Except.bind, pure, Except.pure]
    exact ⟨_, _, _, _, rfl, rfl, rfl, rfl, bind2_error _ _ _ h, bind2_error _ _ _ h,
      bind2_error _ _ _ h, bind2_error _ _ _ h⟩
  | int8 d =>
    simp only [shapeOf, asFast?, asSlow?, Option.some.injEq] at hs; subst hs
    have h : (∃ e, assertInt8 a = .error e) ∨ (∃ e, assertInt8 b = .error e) :=
      hmix.imp (assertInt8_error M a) (assertInt8_error M b)
    simp only [Fns, FnsReversed, FnScore, FnScoreReversed, asFast?, asSlow?, scoreBytes_eq,
      bind, Except.bind, pure, Except.pure]
    exact ⟨_, _, _, _, rfl, rfl, rfl, rfl, bind2_error _ _ _ h, bind2_error _ _ _ h,
      bind2_error _ _ _ h, bind2_error _ _ _ h⟩
  | string d =>
    simp only [shapeOf, asFast?, asSlow?, Option.some.injEq] at hs; subst hs
    have h : (∃ e, assertString a = .error e) ∨ (∃ e, assertString b = .error e) :=
      hmix.imp (assertString_error M a) (assertString_error M b)
    simp only [Fns, FnsReversed, FnScore, FnScoreReversed, asFast?, asSlow?, scoreBytes_eq,
      bind, Except.bind, pure, Except.pure]
    exact ⟨_, _, _, _, rfl, rfl, rfl, rfl, bind2_error _ _ _ h, bind2_error _ _ _ h,
      bind2_error _ _ _ h, bind2_error _ _ _ h⟩
  | uint d =>
    simp only [shapeOf, asFast?, asSlow?, Option.some.injEq] at hs; subst hs
    have h : (∃ e, assertUint a = .error e) ∨ (∃ e, assertUint b = .error e) :=
      hmix.imp (assertUint_error M a) (assertUint_error M b)
    simp only [Fns, FnsReversed, FnScore, FnScoreReversed, asFast?, asSlow?, scoreBytes_eq,
      bind, Except.bind, pure, Except.pure]
    exact ⟨_, _, _, _, rfl, rfl, rfl, rfl, bind2_error _ _ _ h, bind2_error _ _ _ h,
      bind2_error _ _ _ h, bind2_error _ _ _ h⟩
  | uint16 d =>
    simp only [shapeOf, asFast?, asSlow?, Option.some.injEq] at hs; subst hs
    have h : (∃ e, assertUint16 a = .error e) ∨ (∃ e, assertUint16 b = .error e) :=
      hmix.imp (assertUint16_error M a) (assertUint16_error M b)
    simp only [Fns, FnsReversed, FnScore, FnScoreReversed, asFast?, asSlow?, scoreBytes_eq,
      bind, Except.bind, pure, Except.pure]
    exact ⟨_, _, _, _, rfl, rfl, rfl, rfl, bind2_error _ _ _ h, bind2_error _ _ _ h,
      bind2_error _ _ _ h, bind2_error _ _ _ h⟩
  | uint32 d =>
    simp only [shapeOf, asFast?, asSlow?, Option.some.injEq] at hs; subst hs
    have h : (∃ e, assertUint32 a = .error e) ∨ (∃ e, assertUint32 b = .error e) :=
      hmix.imp (assertUint32_error M a) (assertUint32_error M b)
    simp only [Fns, FnsReversed, FnScore, FnScoreReversed, asFast?, asSlow?, scoreBytes_eq,
      bind, Except.bind, pure, Except.pure]
    exact ⟨_, _, _, _, rfl, rfl, rfl, rfl, bind2_error _ _ _ h, bind2_error _ _ _ h,
      bind2_error _ _ _ h, bind2_error _ _ _ h⟩
  | uint64 d =>
    simp only [shapeOf, asFast?, asSlow?, Option.some.injEq] at hs; subst hs
    have h : (∃ e, assertUint64 a = .error e) ∨ (∃ e, assertUint64 b = .error e) :=
      hmix.imp (assertUint64_error M a) (assertUint64_error M b)
    simp only [Fns, FnsReversed, FnScore, FnScoreReversed, asFast?, asSlow?, scoreBytes_eq,
      bind, Except.bind, pure, Except.pure]
    exact ⟨_, _, _, _, rfl, rfl, rfl, rfl, bind2_error _ _ _ h, bind2_error _ _ _ h,
      bind2_error _ _ _ h, bind2_error _ _ _ h⟩
  | uint8 d =>
    simp only [shapeOf, asFast?, asSlow?, Option.some.injEq] at hs; subst hs
    have h : (∃ e, assertUint8 a = .error e) ∨ (∃ e, assertUint8 b = .error e) :=
      hmix.imp (assertUint8_error M a) (assertUint8_error M b)
    simp only [Fns, FnsReversed, FnScore, FnScoreReversed, asFast?, asSlow?, scoreBytes_eq,
      bind, Except.bind, pure, Except.pure]
    exact ⟨_, _, _, _, rfl, rfl, rfl, rfl, bind2_error _ _ _ h, bind2_error _ _ _ h,
      bind2_error _ _ _ h, bind2_error _ _ _ h⟩
  | uintptr d =>
    simp only [shapeOf, asFast?, asSlow?, Option.some.injEq] at hs; subst hs
    have h : (∃ e, assertUintptr a = .error e) ∨ (∃ e, assertUintptr b = .error e) :=
      hmix.imp (assertUintptr_error M a) (assertUintptr_error M b)
    simp only [Fns, FnsReversed, FnScore, FnScoreReversed, asFast?, asSlow?, scoreBytes_eq,
      bind, Except.bind, pure, Except.pure]
    exact ⟨_, _, _, _, rfl, rfl, rfl, rfl, bind2_error _ _ _ h, bind2_error _ _ _ h,
      bind2_error _ _ _ h, bind2_error _ _ _ h⟩

/-- An `int` sample and the mixed pair `int(0)`, `int64(1)`. -/
theorem less_panics_on_mixed_witness :
    shapeOf testMethods (.int ⟨0, by decide⟩) = some .int
      ∧ shapeOf testMethods (.int64 ⟨1, by decide⟩) ≠ some .int
      ∧ ∃ p q r t, Fns testMethods (.int ⟨0, by decide⟩) = .ok p
        ∧ FnsReversed testMethods (.int ⟨0, by decide⟩) = .ok q
        ∧ FnScore testMethods (.int ⟨0, by decide⟩) = .ok r
        ∧ FnScoreReversed testMethods (.int ⟨0, by decide⟩) = .ok t
        ∧ (∃ e, p.1 (.int ⟨0, by decide⟩) (.int64 ⟨1, by decide⟩) = .error e)
        ∧ (∃ e, q.1 (.int ⟨0, by decide⟩) (.int64 ⟨1, by decide⟩) = .error e)
        ∧ (∃ e, r.1 (.int ⟨0, by decide⟩) (.int64 ⟨1, by decide⟩) = .error e)
        ∧ (∃ e, t.1 (.int ⟨0, by decide⟩) (.int64 ⟨1, by decide⟩) = .error e) :=
  ⟨rfl, by decide,
    less_panics_on_mixed testMethods (.int ⟨0, by decide⟩) (.int ⟨0, by decide⟩)
      (.int64 ⟨1, by decide⟩) .int rfl (by decide) (by decide) (Or.inr (by decide))⟩

/-! ## C20: safety of `scoreBytes` -/

theorem and_eq_zero_of_dvd_of_lt (n a b : Nat) (ha : 2 ^ n ∣ a) (hb : b < 2 ^ n) :
    a &&& b = 0 := by
  obtain ⟨c, rfl⟩ := ha
  apply Nat.eq_of_testBit_eq
  intro j
  rw [Nat.testBit_and, Nat.testBit_mul_pow_two, Nat.zero_testBit]
  by_cases hj : j < n
  · simp [Nat.not_le_of_lt hj]
  · have : b < 2 ^ j := lt_of_lt_of_le hb (Nat.pow_le_pow_right (by norm_num) (by omega))
    simp [Nat.testBit_lt_two_pow this]

/-- C20. `scoreBytes` is total and safe for every byte sequence: it returns; its
loop runs over exactly the indices `0 .. min(len(data), 6) - 1`; in iteration
`i` the index satisfies `i < len(data)` and the read succeeds, `5 - i` does not
underflow, the shift amount `(5 - i) * 8` is one of 0, 8, 16, 24, 32, 40, and
the shifted byte shares no bit with the lanes packed so far. -/
theorem scoreBytes_safe (data : List Byte) :
    (∃ r, scoreBytes data = .ok r)
    ∧ scoreBytesBits data = (List.range (min data.length 6)).foldlM (scoreBytesStep data) 0
    ∧ ∀ i, i < min data.length 6 →
        i < data.length
        ∧ index data i = .ok (data.getD i 0)
        ∧ i ≤ 5 ∧ usub 5 i = 5 - i
        ∧ umul (usub 5 i) 8 ∈ [0, 8, 16, 24, 32, 40]
        ∧ (List.range i).foldlM (scoreBytesStep data) 0 = .ok (lanes data i)
        ∧ lanes data i &&& shl64 (data.getD i 0).val (umul (usub 5 i) 8) = 0 := by
  refine ⟨⟨_, scoreBytes_eq data⟩, ?_, ?_⟩
  · have : (if data.length > 6 then 6 else data.length) = min data.length 6 := by
      split <;> omega
    simp only [scoreBytesBits, this]
  · intro i hi
    have hi5 : i ≤ 5 := by omega
    have hlen : i < data.length := by omega
    have hsub : usub 5 i = 5 - i := by simp only [usub]; omega
    have hmul : umul (usub 5 i) 8 = 8 * (5 - i) := by simp only [usub, umul]; omega
    have hb : (data.getD i 0).val < 256 := (data.getD i 0).isLt
    refine ⟨hlen, ?_, hi5, hsub, ?_, scoreBytes_loop data i (by omega) (by omega), ?_⟩
    · simp [index, List.getD, List.getElem?_eq_getElem hlen]
    · rw [hmul]
      have : i = 0 ∨ i = 1 ∨ i = 2 ∨ i = 3 ∨ i = 4 ∨ i = 5 := by omega
      rcases this with h | h | h | h | h | h <;> subst h <;> simp
    · rw [hmul]
      apply and_eq_zero_of_dvd_of_lt (8 * (6 - i)) _ _ (lanes_dvd data i (by omega))
      have h64 : 8 * (5 - i) < 64 := by omega
      have hlt : (data.getD i 0).val * 2 ^ (8 * (5 - i)) < 2 ^ (8 * (6 - i)) := by
        have : 8 * (6 - i) = 8 + 8 * (5 - i) := by omega
        rw [this, pow_add]
        exact Nat.mul_lt_mul_of_lt_of_le hb (le_refl _) (by positivity)
      simp only [shl64, h64, if_true, Nat.shiftLeft_eq]
      exact lt_of_le_of_lt (Nat.mod_le _ _) hlt

/-- The seven-byte slice `"abcdefg"`, last iteration `i = 5`. -/
theorem scoreBytes_safe_witness :
    5 < min abcdefg.length 6
      ∧ index abcdefg 5 = .ok (abcdefg.getD 5 0)
      ∧ usub 5 5 = 5 - 5
      ∧ umul (usub 5 5) 8 ∈ [0, 8, 16, 24, 32, 40]
      ∧ lanes abcdefg 5 &&& shl64 (abcdefg.getD 5 0).val (umul (usub 5 5) 8) = 0 :=
  ⟨by decide, ((scoreBytes_safe abcdefg).2.2 5 (by decide)).2.1,
    ((scoreBytes_safe abcdefg).2.2 5 (by decide)).2.2.2.1,
    ((scoreBytes_safe abcdefg).2.2 5 (by decide)).2.2.2.2.1,
    ((scoreBytes_safe abcdefg).2.2 5 (by decide)).2.2.2.2.2.2⟩

/-! ## Rounding to 53 bits is monotone -/

theorem ilog2Aux_spec (f : Nat) : ∀ n : Nat, 1 ≤ n → n ≤ f →
    2 ^ ilog2Aux f n ≤ n ∧ n < 2 ^ (ilog2Aux f n + 1) := by
  induction f with
  | zero => intro n h1 h2; omega
  | succ f ih =>
    intro n h1 h2
    unfold ilog2Aux
    split
    · simp; omega
    · obtain ⟨h3, h4⟩ := ih (n / 2) (by omega) (by omega)
      rw [pow_succ] at h4 ⊢
      rw [pow_succ]
      constructor <;> omega

theorem ilog2_spec (n : Nat) (h : 1 ≤ n) : 2 ^ ilog2 n ≤ n ∧ n < 2 ^ (ilog2 n + 1) :=
  ilog2Aux_spec n n h (le_refl n)

theorem ilog2_mono (n m : Nat) (hn : 1 ≤ n) (h : n ≤ m) : ilog2 n ≤ ilog2 m := by
  have h1 := (ilog2_spec n hn).1
  have h2 := (ilog2_spec m (by omega)).2
  have h3 : 2 ^ ilog2 n < 2 ^ (ilog2 m + 1) := by omega
  have := (Nat.pow_lt_pow_iff_right (by norm_num : 1 < 2)).mp h3
  omega

theorem round53_zero : round53 0 = 0 := by decide

/-- The rounding of `n` when its highest bit `k` is at position 53 or above. -/
theorem round53_of_ge (n : Nat) (hk : 53 ≤ ilog2 n) :
    round53 n = (if 2 ^ (ilog2 n - 52 - 1) < n % 2 ^ (ilog2 n - 52)
        ∨ (n % 2 ^ (ilog2 n - 52) = 2 ^ (ilog2 n - 52 - 1)
          ∧ n / 2 ^ (ilog2 n - 52) % 2 = 1)
      then n / 2 ^ (ilog2 n - 52) + 1 else n / 2 ^ (ilog2 n - 52)) * 2 ^ (ilog2 n - 52) := by
  unfold round53
  simp only [Nat.shiftRight_eq_div_pow]
  rw [if_neg (by omega)]

theorem round53_bounds (n : Nat) (h : 1 ≤ n) :
    2 ^ ilog2 n ≤ round53 n ∧ round53 n ≤ 2 ^ (ilog2 n + 1) := by
  obtain ⟨h1, h2⟩ := ilog2_spec n h
  by_cases hk : ilog2 n < 53
  · have : round53 n = n := by unfold round53; simp only []; rw [if_pos hk]
    rw [this]; omega
  · have hk2 : 53 ≤ ilog2 n := by omega
    rw [round53_of_ge n hk2]
    generalize hsh : ilog2 n - 52 = sh at *
    have hke : ilog2 n = 52 + sh := by omega
    rw [hke] at h1 h2 ⊢
    have hP : 0 < 2 ^ sh := by positivity
    have hq1 : 2 ^ 52 ≤ n / 2 ^ sh := by
      rw [Nat.le_div_iff_mul_le hP, ← pow_add]; exact h1
    have hq2 : n / 2 ^ sh < 2 ^ 53 := by
      rw [Nat.div_lt_iff_lt_mul hP, ← pow_add]
      have : 53 + sh = 52 + sh + 1 := by omega
      rw [this]; exact h2
    constructor
    · calc 2 ^ (52 + sh) = 2 ^ 52 * 2 ^ sh := pow_add _ _ _
        _ ≤ _ := Nat.mul_le_mul_right _ (by split <;> omega)
    · calc _ ≤ 2 ^ 53 * 2 ^ sh := Nat.mul_le_mul_right _ (by split <;> omega)
        _ = 2 ^ (52 + sh + 1) := by rw [← pow_add]; congr 1; omega

theorem round53_mono (n m : Nat) (h : n ≤ m) : round53 n ≤ round53 m := by
  rcases Nat.eq_zero_or_pos n with hn | hn
  · subst hn; rw [round53_zero]; exact Nat.zero_le _
  have hm : 1 ≤ m := by omega
  have hk := ilog2_mono n m hn h
  rcases Nat.lt_or_eq_of_le hk with hlt | heq
  · calc round53 n ≤ 2 ^ (ilog2 n + 1) := (round53_bounds n hn).2
      _ ≤ 2 ^ ilog2 m := Nat.pow_le_pow_right (by norm_num) hlt
      _ ≤ round53 m := (round53_bounds m hm).1
  · by_cases hk53 : ilog2 m < 53
    · have e1 : round53 n = n := by unfold round53; simp only []; rw [if_pos (by omega)]
      have e2 : round53 m = m := by unfold round53; simp only []; rw [if_pos hk53]
      rw [e1, e2]; exact h
    · rw [round53_of_ge n (by omega), round53_of_ge m (by omega), heq]
      generalize ilog2 m - 52 = sh
      apply Nat.mul_le_mul_right
      have hP : 0 < 2 ^ sh := by positivity
      have hq : n / 2 ^ sh ≤ m / 2 ^ sh := Nat.div_le_div_right h
      have dn := Nat.div_add_mod n (2 ^ sh)
      have dm := Nat.div_add_mod m (2 ^ sh)
      rcases Nat.lt_or_eq_of_le hq with hq1 | hq1
      · split <;> split <;> omega
      · rw [hq1] at dn ⊢
        have hr : n % 2 ^ sh ≤ m % 2 ^ sh := by omega
        split <;> split <;> omega

/-! ## C13: integer scores never reverse the order -/

theorem F64.ofNat_le (n m : Nat) (h : n ≤ m) : F64.le (F64.ofNat n) (F64.ofNat m) = true := by
  have := round53_mono n m h
  simp only [F64.ofNat, F64.le, F64.lt, F64.eq, Bool.or_eq_true, decide_eq_true_eq, Nat.cast_lt,
    Nat.cast_inj]
  omega

theorem F64.ofInt_le (a b : Int) (h : a ≤ b) : F64.le (F64.ofInt a) (F64.ofInt b) = true := by
  have key : ∀ x y : ℚ, x ≤ y → F64.le (.fin x) (.fin y) = true := by
    intro x y hxy
    simp only [F64.le, F64.lt, F64.eq, Bool.or_eq_true, decide_eq_true_eq]
    exact lt_or_eq_of_le hxy
  unfold F64.ofInt
  by_cases ha : a < 0
  · by_cases hb : b < 0
    · rw [if_pos ha, if_pos hb]
      apply key
      have := round53_mono b.natAbs a.natAbs (by omega)
      have : ((round53 b.natAbs : ℕ) : ℚ) ≤ ((round53 a.natAbs : ℕ) : ℚ) := by exact_mod_cast this
      linarith
    · rw [if_pos ha, if_neg hb]
      apply key
      have h1 : (0 : ℚ) ≤ ((round53 a.natAbs : ℕ) : ℚ) := Nat.cast_nonneg _
      have h2 : (0 : ℚ) ≤ ((round53 b.natAbs : ℕ) : ℚ) := Nat.cast_nonneg _
      linarith
  · have hb : ¬ b < 0 := by omega
    rw [if_neg ha, if_neg hb]
    apply key
    have := round53_mono a.natAbs b.natAbs (by omega)
    exact_mod_cast this

/-- C13. For every integer kind, whenever the `less` returned by `Fns` says
`less(a, b)`, the `score` returned by `Fns` gives `score(a) <= score(b)`, also
for 64-bit values above `2^53`, where the conversion to `float64` rounds. -/
theorem Fns_int_score_le_of_less {α : Type} (M : Methods α) (s a b : Value α) (sh : Shape)
    (p : LessFn α × ScoreFn α) (hs : shapeOf M s = some sh) (hint : sh.isInteger = true)
    (hF : Fns M s = .ok p) (hlt : p.1 a b = .ok true) :
    ∃ sa sb, p.2 a = .ok sa ∧ p.2 b = .ok sb ∧ F64.le sa sb = true := by
  cases s with
  | nil => simp [shapeOf, asFast?, asSlow?] at hs
  | user ty x =>
    rcases shapeOf_user M ty x with h1 | h1 | h1 <;> rw [h1] at hs <;>
      simp only [Option.some.injEq, reduceCtorEq] at hs <;> subst hs <;>
      simp [Shape.isInteger] at hint
  | bytes d | string d | float32 d | float64 d =>
    simp only [shapeOf, asFast?, asSlow?, Option.some.injEq] at hs; subst hs
    simp [Shape.isInteger] at hint
  | int d | int16 d | int32 d | int64 d | int8 d =>
    simp only [Fns, asFast?, asSlow?, Except.ok.injEq] at hF; subst hF
    simp only [bind_eq_ok, assertInt_eq_ok, assertInt16_eq_ok, assertInt32_eq_ok,
      assertInt64_eq_ok, assertInt8_eq_ok] at hlt
    obtain ⟨x, rfl, y, rfl, hxy⟩ := hlt
    simp only [pure, Except.pure, Except.ok.injEq, decide_eq_true_eq] at hxy
    exact ⟨_, _, rfl, rfl, F64.ofInt_le _ _ (le_of_lt hxy)⟩
  | uint d | uint16 d | uint32 d | uint64 d | uint8 d | uintptr d =>
    simp only [Fns, asFast?, asSlow?, Except.ok.injEq] at hF; subst hF
    simp only [bind_eq_ok, assertUint_eq_ok, assertUint16_eq_ok, assertUint32_eq_ok,
      assertUint64_eq_ok, assertUint8_eq_ok, assertUintptr_eq_ok] at hlt
    obtain ⟨x, rfl, y, rfl, hxy⟩ := hlt
    simp only [pure, Except.pure, Except.ok.injEq, decide_eq_true_eq] at hxy
    exact ⟨_, _, rfl, rfl, F64.ofNat_le _ _ (le_of_lt hxy)⟩

/-- The `int64` values `2^53 < 2^53 + 1`, whose scores are equal after rounding. -/
theorem Fns_int_score_le_of_less_witness :
    ∃ p, Fns testMethods (.int64 int64_2p53) = .ok p
      ∧ p.1 (.int64 int64_2p53) (.int64 int64_2p53_succ) = .ok true
      ∧ ∃ sa sb, p.2 (.int64 int64_2p53) = .ok sa ∧ p.2 (.int64 int64_2p53_succ) = .ok sb
        ∧ F64.le sa sb = true :=
  ⟨_, rfl, rfl, Fns_int_score_le_of_less testMethods (.int64 int64_2p53) _ _ .int64 _ rfl rfl
    rfl rfl⟩

/-! ## C14: integer scores are exact up to 53 bits -/

/-- C14. The integer score is exact up to 53 bits: for every integer kind and
every value `v` of that kind with `|v| <= 2^53`, in particular every value of a
kind of at most 32 bits, the score returned by `Fns` and the score returned by
`FnScore` equal `v` as a number. -/
theorem Fns_int_score_exact {α : Type} (M : Methods α) (s a : Value α) (sh : Shape)
    (hs : shapeOf M s = some sh) (ha : shapeOf M a = some sh) (hint : sh.isInteger = true)
    (hmag : sh.atMost32 = true ∨ magnitude a ≤ 2 ^ 53) :
    ∃ p r, Fns M s = .ok p ∧ p.2 a = .ok (.fin (intValue a : ℚ))
      ∧ FnScore M a = .ok r ∧ r.2 = .fin (intValue a : ℚ) := by
  cases s with
  | nil => simp [shapeOf, asFast?, asSlow?] at hs
  | user ty x =>
    rcases shapeOf_user M ty x with h1 | h1 | h1 <;> rw [h1] at hs <;>
      simp only [Option.some.injEq, reduceCtorEq] at hs <;> subst hs <;>
      simp [Shape.isInteger] at hint
  | bytes d | string d | float32 d | float64 d =>
    simp only [shapeOf, asFast?, asSlow?, Option.some.injEq] at hs; subst hs
    simp [Shape.isInteger] at hint
  | int d | int16 d | int32 d | int64 d | int8 d =>
    simp only [shapeOf, asFast?, asSlow?, Option.some.injEq] at hs; subst hs
    obtain ⟨x, rfl⟩ := shapeOf_cases M a _ ha
    have hx := x.property
    simp only [Shape.atMost32, magnitude, Bool.false_eq_true, false_or, true_or] at hmag
    norm_num at hx
    have e : F64.ofInt x.val = .fin (x.val : ℚ) := F64.ofInt_exact _ (by omega) (by omega)
    exact ⟨_, _, rfl, congrArg Except.ok e, rfl, e⟩
  | uint d | uint16 d | uint32 d | uint64 d | uint8 d | uintptr d =>
    simp only [shapeOf, asFast?, asSlow?, Option.some.injEq] at hs; subst hs
    obtain ⟨x, rfl⟩ := shapeOf_cases M a _ ha
    have hx := x.isLt
    simp only [Shape.atMost32, magnitude, Bool.false_eq_true, false_or, true_or] at hmag
    norm_num at hx
    have e : F64.ofNat x.val = .fin (((x.val : ℕ) : ℤ) : ℚ) := by
      rw [F64.ofNat_exact _ (by omega)]; simp
    exact ⟨_, _, rfl, congrArg Except.ok e, rfl, e⟩

/-- The `int64` value 1 scores `1.0`. -/
theorem Fns_int_score_exact_witness :
    magnitude (Value.int64 int64_1 : Value (SInt 64)) ≤ 2 ^ 53
      ∧ ∃ p r, Fns testMethods (.int64 int64_0) = .ok p ∧ p.2 (.int64 int64_1) = .ok (.fin 1)
        ∧ FnScore testMethods (.int64 int64_1) = .ok r ∧ r.2 = .fin 1 := by
  have h := Fns_int_score_exact testMethods (.int64 int64_0) (.int64 int64_1) .int64 rfl rfl rfl
    (Or.inr (by decide))
  simpa [intValue, int64_1] using And.intro (show magnitude (Value.int64 int64_1 :
    Value (SInt 64)) ≤ 2 ^ 53 by decide) h

end ord
